import Mathlib

/-!
Verification of the binary-search-tree module (`src/bst/binary_tree.c`).

The C structure `BinarySearchTreeNode` owns a payload pointer `data` (NULL
only in the empty-tree sentinel), its byte length `data_size`, and two child
pointers.  We embed a heap of such nodes as an inductive tree in which every
node carries the identity of the C node object (`id`, modelling the pointer
value), its payload slot (`none` models `data == NULL`), and its children
(`nil` models a NULL child pointer).  A payload is a value of an arbitrary
type `α`, compared by a caller-supplied comparator returning an `Int`
(negative / zero / positive), exactly as in the C API.

Process-terminating error paths (`exit(...)` in the C code) are modelled as
`Except` errors; "not found" is a normal `.ok` return, as in the source.
Deletion additionally returns the list of payloads passed to the release
function (`deep_free`/`free`) and the list of node objects passed to
`free(node)`, so that ownership and conservation claims can be stated.
-/

namespace CBst

/-- A C `BinarySearchTreeNode*` value: `nil` is a NULL pointer; a node carries
its object identity `id` (the pointer), its payload slot `data`
(`none` = `data == NULL`; a present payload is the pair of the payload value
and `data_size`), and the two child pointers. -/
inductive NTree (α : Type) where
  | nil : NTree α
  | node (id : Nat) (data : Option (α × Nat)) (l r : NTree α) : NTree α
deriving DecidableEq

/-- Exit statuses used by the C module (`exit(...)` codes). -/
inductive BstErr where
  | notInitialized
  | containsFailed
  | insertFailed
  | deleteFailed
  | malformed
  | allocFailed
deriving DecidableEq

variable {α : Type}

/-- The root pointer of a tree handle (`none` for a NULL handle). -/
def NTree.rootId : NTree α → Option Nat
  | .nil => none
  | .node i _ _ _ => some i

/-- In-order list of the payload values stored in the tree (nodes with
`data == NULL` contribute nothing, but their children are still traversed,
matching `bst_fill_nodes_inorder`). -/
def payloads : NTree α → List α
  | .nil => []
  | .node _ none l r => payloads l ++ payloads r
  | .node _ (some (p, _)) l r => payloads l ++ p :: payloads r

/-- In-order list of the node object identities (pointers) of all allocated
nodes reachable from the handle, sentinel included. -/
def idsOf : NTree α → List Nat
  | .nil => []
  | .node i _ l r => idsOf l ++ i :: idsOf r

/-- `bst_fill_nodes_inorder`: in-order sequence of node references.  A node
reference is modelled as the triple (object identity, payload, payload size);
nodes whose `data` is NULL are skipped but their children are traversed. -/
def fillInorder : NTree α → List (Nat × α × Nat)
  | .nil => []
  | .node _ none l r => fillInorder l ++ fillInorder r
  | .node i (some (p, sz)) l r => fillInorder l ++ (i, p, sz) :: fillInorder r

/-- Every reachable node has a present payload. -/
def allPresent : NTree α → Bool
  | .nil => true
  | .node _ none _ _ => false
  | .node _ (some _) l r => allPresent l && allPresent r

/-- Node-local BST ordering: at every payload-carrying node, all payloads of
the left subtree compare `< 0` against it and it compares `< 0` against all
payloads of the right subtree. -/
def orderedLoc (cmp : α → α → Int) : NTree α → Bool
  | .nil => true
  | .node _ none l r => orderedLoc cmp l && orderedLoc cmp r
  | .node _ (some (p, _)) l r =>
      (payloads l).all (fun q => decide (cmp q p < 0)) &&
      (payloads r).all (fun q => decide (cmp p q < 0)) &&
      orderedLoc cmp l && orderedLoc cmp r

/-- A valid tree handle: either the empty sentinel (allocated root object with
absent payload and no children) or a tree all of whose nodes carry payloads,
satisfying the BST order under `cmp`, with pairwise distinct node objects
(no aliasing — each node has exactly one parent). -/
def ValidTree (cmp : α → α → Int) : NTree α → Prop
  | .nil => False
  | .node _ none l r => l = .nil ∧ r = .nil
  | .node i (some d) l r =>
      allPresent (.node i (some d) l r) = true ∧
      orderedLoc cmp (.node i (some d) l r) = true ∧
      (idsOf (.node i (some d) l r)).Nodup

instance (cmp : α → α → Int) [DecidableEq α] : (t : NTree α) → Decidable (ValidTree cmp t)
  | .nil => isFalse (fun h => h)
  | .node _ none l r => inferInstanceAs (Decidable (_ ∧ _))
  | .node _ (some _) _ _ => inferInstanceAs (Decidable (_ ∧ _ ∧ _))

/-- Height of a tree counted in nodes (`nil` has height 0). -/
def height : NTree α → Nat
  | .nil => 0
  | .node _ _ l r => 1 + max (height l) (height r)

/-- The laws the caller-supplied comparator must satisfy: a strict total
order presented through sign values, i.e. antisymmetric sign, transitivity
of the negative case, and compatibility of comparator-equality. -/
structure IsStrictCmp (cmp : α → α → Int) : Prop where
  comm : ∀ a b, cmp b a = -cmp a b
  lt_trans : ∀ a b c, cmp a b < 0 → cmp b c < 0 → cmp a c < 0
  eq_congr : ∀ a b c, cmp a b = 0 → cmp a c = cmp b c

/- ==================== the operations of binary_tree.c ==================== -/

/-- `bin_search_tree_contains(tree, data, compare)`.  Returns the located
node's identity (or `none` for "not found") together with the number of
comparator invocations performed.  NULL handle / malformed sentinel exits are
the corresponding errors. -/
def bin_search_tree_contains (cmp : α → α → Int) :
    NTree α → α → Except BstErr (Option Nat × Nat)
  | .nil, _ => .error .notInitialized
  | .node _ none l r, _ =>
      match l, r with
      | .nil, .nil => .ok (none, 0)      -- empty sentinel: not found, no compare
      | _, _ => .error .malformed
  | .node i (some (p, _)) l r, key =>
      let c := cmp key p
      if c = 0 then .ok (some i, 1)
      else if c < 0 then
        match l with
        | .nil => .ok (none, 1)
        | _ =>
            match bin_search_tree_contains cmp l key with
            | .error e => .error e
            | .ok (res, k) => .ok (res, k + 1)
      else
        match r with
        | .nil => .ok (none, 1)
        | _ =>
            match bin_search_tree_contains cmp r key with
            | .error e => .error e
            | .ok (res, k) => .ok (res, k + 1)

/-- `bin_search_tree_insert_node(tree, data, data_size, compare)`.  `fresh` is
the identity of the node object that `bin_search_tree_alloc_node` would hand
out if a new node is allocated.  Returns the updated tree, the identity of the
node now holding `data` (or of the node already holding an equal payload), and
whether a node was allocated. -/
def bin_search_tree_insert_node (cmp : α → α → Int) (fresh : Nat) :
    NTree α → α → Nat → Except BstErr (NTree α × Nat × Bool)
  | .nil, _, _ => .error .notInitialized
  | .node i none l r, data, dsz =>
      if dsz = 0 then .error .insertFailed
      else
        match l, r with
        | .nil, .nil => .ok (.node i (some (data, dsz)) .nil .nil, i, false)
        | _, _ => .error .malformed
  | .node i (some (p, psz)) l r, data, dsz =>
      if dsz = 0 then .error .insertFailed
      else
        let c := cmp data p
        if c = 0 then
          -- already contained: no-op, caller keeps ownership of `data`
          .ok (.node i (some (p, psz)) l r, i, false)
        else if c < 0 then
          match l with
          | .nil =>
              .ok (.node i (some (p, psz)) (.node fresh (some (data, dsz)) .nil .nil) r,
                   fresh, true)
          | _ =>
              match bin_search_tree_insert_node cmp fresh l data dsz with
              | .error e => .error e
              | .ok (l', rid, al) => .ok (.node i (some (p, psz)) l' r, rid, al)
        else
          match r with
          | .nil =>
              .ok (.node i (some (p, psz)) l (.node fresh (some (data, dsz)) .nil .nil),
                   fresh, true)
          | _ =>
              match bin_search_tree_insert_node cmp fresh r data dsz with
              | .error e => .error e
              | .ok (r', rid, al) => .ok (.node i (some (p, psz)) l r', rid, al)

/-- The two-children deletion walk, fused: locates the leftmost node of the
subtree (`bin_search_tree_find_min` plus the `succ_parent` re-walk of
`bin_search_tree_delete_node`) and splices it out by rewiring its parent's
link to its right child.  Returns the leftmost node's payload slot, its
object identity, and the subtree with that node removed.  The walk follows
`left` pointers only and, like the C loop, never inspects `data`. -/
def spliceMin : NTree α → Option (α × Nat) × Nat × NTree α
  | .nil => (none, 0, .nil)            -- unreachable: the walk starts on a non-NULL node
  | .node i d .nil r => (d, i, r)
  | .node i d (.node j e ll lr) r =>
      let (md, mid, l') := spliceMin (.node j e ll lr)
      (md, mid, .node i d l' r)

/-- The part of `bin_search_tree_delete_node` that runs once the iterative
search has descended below the root, i.e. on a node that has a parent.  The
parent's child link is rewired to the returned tree.  Returns the updated
subtree, the payloads handed to the release function, and the identities of
the node objects handed to `free`. -/
def bst_delete_go (cmp : α → α → Int) :
    NTree α → α → Except BstErr (NTree α × List α × List Nat)
  | .nil, _ => .error .deleteFailed    -- unreachable: the C loop never descends into NULL
  | .node _ none _ _, _ => .error .malformed  -- loop check: curr->data == NULL
  | .node i (some (p, sz)) l r, key =>
      let c := cmp key p
      if c = 0 then
        match l, r with
        | .nil, .nil =>
            -- Case A, non-root leaf: parent link nulled, payload released, node freed
            .ok (.nil, [p], [i])
        | .nil, .node rj rd rl rr =>
            -- Case B, one (right) child: parent spliced to the child
            .ok (.node rj rd rl rr, [p], [i])
        | .node lj ld ll lr, .nil =>
            -- Case B, one (left) child
            .ok (.node lj ld ll lr, [p], [i])
        | .node lj ld ll lr, .node rj rd rl rr =>
            -- Case C, two children: find_min checks the right subtree root's data
            match rd with
            | none => .error .malformed
            | some rv =>
                -- swap payloads with the successor, then unlink the successor;
                -- the successor's slot now holds `p`, which is released
                let (md, mid, r') := spliceMin (.node rj (some rv) rl rr)
                .ok (.node i md (.node lj ld ll lr) r', [p], [mid])
      else if c < 0 then
        match l with
        | .nil => .ok (.node i (some (p, sz)) .nil r, [], [])   -- not found
        | _ =>
            match bst_delete_go cmp l key with
            | .error e => .error e
            | .ok (l', rel, fr) => .ok (.node i (some (p, sz)) l' r, rel, fr)
      else
        match r with
        | .nil => .ok (.node i (some (p, sz)) l .nil, [], [])   -- not found
        | _ =>
            match bst_delete_go cmp r key with
            | .error e => .error e
            | .ok (r', rel, fr) => .ok (.node i (some (p, sz)) l r', rel, fr)

/-- `bin_search_tree_delete_node(tree, data, compare, deep_free)`.  The root
pointer is never replaced; deleting the root mutates the root node in place
(sentinelization / payload transfer / successor swap).  Returns the updated
tree, the payloads handed to the release function (`deep_free` when provided,
else `free`), and the identities of the node objects handed to `free`. -/
def bin_search_tree_delete_node (cmp : α → α → Int) :
    NTree α → α → Except BstErr (NTree α × List α × List Nat)
  | .nil, _ => .error .notInitialized
  | .node i none l r, _ =>
      match l, r with
      | .nil, .nil => .ok (.node i none .nil .nil, [], [])  -- empty sentinel: warned no-op
      | _, _ => .error .malformed
  | .node i (some (p, sz)) l r, key =>
      let c := cmp key p
      if c = 0 then
        -- found at the root (parent == NULL)
        match l, r with
        | .nil, .nil =>
            -- leaf root: release payload, sentinelize; the root node is kept
            .ok (.node i none .nil .nil, [p], [])
        | .node vj vd vl vr, .nil =>
            -- one-child root: release root payload, move the child's payload,
            -- size and children into the root, free the child node
            .ok (.node i vd vl vr, [p], [vj])
        | .nil, .node vj vd vl vr =>
            .ok (.node i vd vl vr, [p], [vj])
        | .node lj ld ll lr, .node rj rd rl rr =>
            match rd with
            | none => .error .malformed
            | some rv =>
                let (md, mid, r') := spliceMin (.node rj (some rv) rl rr)
                .ok (.node i md (.node lj ld ll lr) r', [p], [mid])
      else if c < 0 then
        match l with
        | .nil => .ok (.node i (some (p, sz)) .nil r, [], [])   -- not found
        | _ =>
            match bst_delete_go cmp l key with
            | .error e => .error e
            | .ok (l', rel, fr) => .ok (.node i (some (p, sz)) l' r, rel, fr)
      else
        match r with
        | .nil => .ok (.node i (some (p, sz)) l .nil, [], [])   -- not found
        | _ =>
            match bst_delete_go cmp r key with
            | .error e => .error e
            | .ok (r', rel, fr) => .ok (.node i (some (p, sz)) l r', rel, fr)

/-- `bst_count_nodes`: number of payload-carrying nodes; exits on a node with
absent payload but present children. -/
def bst_count_nodes : NTree α → Except BstErr Nat
  | .nil => .ok 0
  | .node _ none l r =>
      match l, r with
      | .nil, .nil => .ok 0
      | _, _ => .error .malformed
  | .node _ (some _) l r =>
      match bst_count_nodes l, bst_count_nodes r with
      | .ok a, .ok b => .ok (1 + a + b)
      | .error e, _ => .error e
      | .ok _, .error e => .error e

/-- `bst_link_balanced(arr, lo, hi)` on the slice `arr` (the fuel argument
makes the take/drop recursion structural; it is always called with fuel
at least the slice length).  The local subroot is the element at offset
`(hi - lo) / 2`, i.e. `(length - 1) / 2` of the slice. -/
def bst_link_balanced : Nat → List (Nat × α × Nat) → NTree α
  | 0, _ => .nil
  | _ + 1, [] => .nil
  | f + 1, q :: qs =>
      let mid := qs.length / 2
      let x := (q :: qs).get ⟨mid, Nat.lt_succ_of_le (Nat.div_le_self qs.length 2)⟩
      .node x.1 (some x.2)
        (bst_link_balanced f ((q :: qs).take mid))
        (bst_link_balanced f ((q :: qs).drop (mid + 1)))

/-- The scan `while (r < n && nodes[r] != tree) ++r` locating the root's
position in the in-order node sequence by pointer identity. -/
def bst_scan_root (i : Nat) : List (Nat × α × Nat) → Option Nat
  | [] => none
  | x :: xs =>
      if x.1 = i then some 0
      else
        match bst_scan_root i xs with
        | none => none
        | some k => some (k + 1)

/-- `bin_search_tree_rebalance(tree)`: flatten the node references in order,
find the root's position by pointer identity, and relink the slices on each
side of it into height-balanced subtrees hung off the original root object. -/
def bin_search_tree_rebalance : NTree α → Except BstErr (NTree α)
  | .nil => .error .notInitialized
  | .node i none l r =>
      match l, r with
      | .nil, .nil => .ok (.node i none .nil .nil)   -- empty sentinel: nothing to do
      | _, _ => .error .malformed
  | .node i (some d) l r =>
      match bst_count_nodes (.node i (some d) l r) with
      | .error e => .error e
      | .ok n =>
        if n ≤ 1 then .ok (.node i (some d) l r)
        else
          let nodes := fillInorder (.node i (some d) l r)
          match bst_scan_root i nodes with
          | none => .error .malformed         -- root not found in traversal
          | some rIdx =>
              let newL := if 0 < rIdx then
                  bst_link_balanced (nodes.take rIdx).length (nodes.take rIdx)
                else .nil
              let newR := if rIdx + 1 < n then
                  bst_link_balanced (nodes.drop (rIdx + 1)).length (nodes.drop (rIdx + 1))
                else .nil
              .ok (.node i (some d) newL newR)

/-- The BST search descent of `bin_search_tree_delete_node`'s locate loop:
the subtree rooted at the node holding a payload comparing equal to `key`,
if the descent finds one. -/
def locate (cmp : α → α → Int) : NTree α → α → Option (NTree α)
  | .nil, _ => none
  | .node _ none _ _, _ => none
  | .node i (some (p, sz)) l r, key =>
      let c := cmp key p
      if c = 0 then some (.node i (some (p, sz)) l r)
      else if c < 0 then locate cmp l key
      else locate cmp r key

/-- Replace the subtree that the BST descent for `key` locates by `rep`
(used to state what the two-children deletion case does to the tree). -/
def substLocated (cmp : α → α → Int) (rep : NTree α) : NTree α → α → NTree α
  | .nil, _ => .nil
  | .node i none l r, _ => .node i none l r
  | .node i (some (p, sz)) l r, key =>
      let c := cmp key p
      if c = 0 then rep
      else if c < 0 then .node i (some (p, sz)) (substLocated cmp rep l key) r
      else .node i (some (p, sz)) l (substLocated cmp rep r key)

/- ==================== call sequences ==================== -/

/-- One public mutating call of the BST API. -/
inductive BstOp (α : Type) where
  | ins (data : α) (sz : Nat)
  | del (key : α)
  | reb

/-- Run one call against a tree handle.  The `Nat` component is the next
node identity the allocator would hand out; the returned list holds the
identities of node objects freed by the call. -/
def applyOp (cmp : α → α → Int) :
    NTree α × Nat → BstOp α → Except BstErr (NTree α × Nat × List Nat)
  | (t, fresh), .ins d sz =>
      match bin_search_tree_insert_node cmp fresh t d sz with
      | .error e => .error e
      | .ok (t', _, _) => .ok (t', fresh + 1, [])
  | (t, fresh), .del k =>
      match bin_search_tree_delete_node cmp t k with
      | .error e => .error e
      | .ok (t', _, freed) => .ok (t', fresh, freed)
  | (t, _fresh), .reb =>
      match bin_search_tree_rebalance t with
      | .error e => .error e
      | .ok t' => .ok (t', _fresh, [])

/-- Run a sequence of calls, accumulating the freed node identities. -/
def runOps (cmp : α → α → Int) :
    NTree α × Nat → List (BstOp α) → Except BstErr (NTree α × Nat × List Nat)
  | st, [] => .ok (st.1, st.2, [])
  | st, op :: ops =>
      match applyOp cmp st op with
      | .error e => .error e
      | .ok (t', f', freed) =>
          match runOps cmp (t', f') ops with
          | .error e => .error e
          | .ok (t'', f'', freed') => .ok (t'', f'', freed ++ freed')

/- ==================== concrete-test scaffolding ==================== -/

/-- The integer comparator used by the reference tests. -/
def icmp : Int → Int → Int := fun a b => a - b

/-- A freshly built empty handle (`bin_search_tree_build_empty`), with node
object identity 0. -/
def emptyHandle : NTree Int := .node 0 none .nil .nil

/-- Insert the given keys in order into a fresh empty handle (payload size 1),
the allocator handing out identities 1, 2, …. -/
def buildSeq (ks : List Int) : Except BstErr (NTree Int × Nat × List Nat) :=
  runOps icmp (emptyHandle, 1) (ks.map (fun k => .ins k 1))

/-- Extract the tree from a run result (junk `nil` on error). -/
def runTree : Except BstErr (NTree Int × Nat × List Nat) → NTree Int
  | .ok (t, _, _) => t
  | .error _ => .nil

/-- Extract the tree from a rebalance result (junk `nil` on error). -/
def rebTree : Except BstErr (NTree Int) → NTree Int
  | .ok t => t
  | .error _ => .nil

/-- `contains` finds the key (a `.ok` result with a located node). -/
def foundIn (t : NTree Int) (k : Int) : Bool :=
  match bin_search_tree_contains icmp t k with
  | .ok (some _, _) => true
  | _ => false

/-- Next allocator identity after a run (junk 0 on error). -/
def runFresh : Except BstErr (NTree Int × Nat × List Nat) → Nat
  | .ok (_, f, _) => f
  | .error _ => 0

/-- Node identities freed during a run (junk `[]` on error). -/
def runFreed : Except BstErr (NTree Int × Nat × List Nat) → List Nat
  | .ok (_, _, fr) => fr
  | .error _ => []

/-- Tree returned by a delete call (junk `nil` on error). -/
def delTree : Except BstErr (NTree Int × List Int × List Nat) → NTree Int
  | .ok (t, _, _) => t
  | .error _ => .nil

/-- Payloads released by a delete call (junk `[]` on error). -/
def delRel : Except BstErr (NTree Int × List Int × List Nat) → List Int
  | .ok (_, rel, _) => rel
  | .error _ => []

/-- Node identities freed by a delete call (junk `[]` on error). -/
def delFreed : Except BstErr (NTree Int × List Int × List Nat) → List Nat
  | .ok (_, _, fr) => fr
  | .error _ => []

/-- The payload stored at the root node of a handle, if any. -/
def rootPayload : NTree α → Option α
  | .nil => none
  | .node _ none _ _ => none
  | .node _ (some (p, _)) _ _ => some p

/-- Height counted in edges: the number of links on the longest root-to-leaf
path (0 for an empty or single-node tree). -/
def heightEdges (t : NTree α) : Nat := height t - 1

/-- The reference-test tree {5,3,7,2,4,6,8}, built by inserting in that order. -/
def exampleTree7 : NTree Int := runTree (buildSeq [5, 3, 7, 2, 4, 6, 8])

/-- Deleting the root key 5 (a two-children node) from `exampleTree7`. -/
def exampleDel5 : Except BstErr (NTree Int × List Int × List Nat) :=
  bin_search_tree_delete_node icmp exampleTree7 5

/-- The keys 1..15 in ascending order. -/
def skewKeys : List Int := (List.range 15).map (fun k => (k : Int) + 1)

/-- The fully right-skewed tree built by inserting 1..15 ascending. -/
def skewTree15 : NTree Int := runTree (buildSeq skewKeys)

/-- The result of rebalancing the skewed tree. -/
def skewReb15 : NTree Int := rebTree (bin_search_tree_rebalance skewTree15)

/- ============================ basic lemmas ============================ -/

theorem icmp_strict : IsStrictCmp icmp := by
  refine ⟨?_, ?_, ?_⟩ <;> (intro a b; try intro c) <;> simp [icmp] <;> omega

theorem IsStrictCmp.eq_comm {cmp : α → α → Int} (hc : IsStrictCmp cmp) {a b : α}
    (h : cmp a b = 0) : cmp b a = 0 := by
  rw [hc.comm, h]; rfl

theorem IsStrictCmp.lt_of_eq_of_lt {cmp : α → α → Int} (hc : IsStrictCmp cmp) {a b c : α}
    (h1 : cmp a b = 0) (h2 : cmp b c < 0) : cmp a c < 0 := by
  rw [hc.eq_congr a b c h1]; exact h2

theorem IsStrictCmp.lt_of_lt_of_eq {cmp : α → α → Int} (hc : IsStrictCmp cmp) {a b c : α}
    (h1 : cmp a b < 0) (h2 : cmp b c = 0) : cmp a c < 0 := by
  have hba : cmp b a = cmp c a := hc.eq_congr b c a h2
  have : cmp c a = -cmp a c := hc.comm a c
  have : cmp b a = -cmp a b := hc.comm a b
  omega

theorem payloads_eq_fill_map (t : NTree α) :
    payloads t = (fillInorder t).map (fun x => x.2.1) := by
  induction t with
  | nil => rfl
  | node i d l r ihl ihr =>
      match d with
      | none => simp [payloads, fillInorder, ihl, ihr]
      | some (p, sz) => simp [payloads, fillInorder, ihl, ihr]

theorem idsOf_eq_fill_map (t : NTree α) (h : allPresent t = true) :
    idsOf t = (fillInorder t).map (fun x => x.1) := by
  induction t with
  | nil => rfl
  | node i d l r ihl ihr =>
      match d with
      | none => simp [allPresent] at h
      | some (p, sz) =>
          simp only [allPresent, Bool.and_eq_true] at h
          simp [idsOf, fillInorder, ihl h.1, ihr h.2]

theorem orderedLoc_iff_pairwise {cmp : α → α → Int} (hc : IsStrictCmp cmp) (t : NTree α)
    (h : allPresent t = true) :
    orderedLoc cmp t = true ↔ (payloads t).Pairwise (fun a b => cmp a b < 0) := by
  induction t with
  | nil => simp [orderedLoc, payloads]
  | node i d l r ihl ihr =>
      match d with
      | none => simp [allPresent] at h
      | some (p, sz) =>
          simp only [allPresent, Bool.and_eq_true] at h
          rw [payloads, orderedLoc]
          simp only [Bool.and_eq_true, List.all_eq_true, decide_eq_true_eq,
            List.pairwise_append, List.pairwise_cons, ihl h.1, ihr h.2]
          constructor
          · rintro ⟨⟨⟨hlp, hpr⟩, hol⟩, hor⟩
            refine ⟨hol, ⟨hpr, hor⟩, ?_⟩
            intro a ha b hb
            rcases List.mem_cons.mp hb with rfl | hb
            · exact hlp a ha
            · exact hc.lt_trans a p b (hlp a ha) (hpr b hb)
          · rintro ⟨hol, ⟨hpr, hor⟩, hcross⟩
            exact ⟨⟨⟨fun q hq => hcross q hq p (List.mem_cons_self p _),
              hpr⟩, hol⟩, hor⟩

theorem count_nodes_ok (t : NTree α) (h : allPresent t = true) :
    bst_count_nodes t = .ok (payloads t).length := by
  induction t with
  | nil => rfl
  | node i d l r ihl ihr =>
      match d with
      | none => simp [allPresent] at h
      | some (p, sz) =>
          simp only [allPresent, Bool.and_eq_true] at h
          rw [bst_count_nodes, ihl h.1, ihr h.2]
          simp [payloads]
          omega

theorem link_balanced_nil (f : Nat) :
    bst_link_balanced f ([] : List (Nat × α × Nat)) = .nil := by
  cases f <;> rfl

theorem fill_link_balanced :
    ∀ (f : Nat) (arr : List (Nat × α × Nat)), arr.length ≤ f →
      fillInorder (bst_link_balanced f arr) = arr
  | 0, arr, h => by
      have : arr = [] := List.eq_nil_of_length_eq_zero (Nat.le_zero.mp h)
      subst this; rfl
  | _ + 1, [], _ => rfl
  | f + 1, q :: qs, h => by
      rw [bst_link_balanced]
      have hmid : qs.length / 2 < (q :: qs).length :=
        Nat.lt_succ_of_le (Nat.div_le_self _ _)
      have htake : ((q :: qs).take (qs.length / 2)).length ≤ f := by
        simp only [List.length_take, List.length_cons]
        have := Nat.div_le_self qs.length 2
        simp only [List.length_cons] at h
        omega
      have hdrop : ((q :: qs).drop (qs.length / 2 + 1)).length ≤ f := by
        simp only [List.length_drop, List.length_cons]
        simp only [List.length_cons] at h
        omega
      rw [fillInorder, fill_link_balanced f _ htake, fill_link_balanced f _ hdrop]
      rw [List.get_eq_getElem]
      have hd := List.drop_eq_getElem_cons (l := q :: qs) (n := qs.length / 2) hmid
      calc (q :: qs).take (qs.length / 2) ++
            (q :: qs)[qs.length / 2] :: (q :: qs).drop (qs.length / 2 + 1)
          = (q :: qs).take (qs.length / 2) ++ (q :: qs).drop (qs.length / 2) := by
            rw [hd]
        _ = q :: qs := List.take_append_drop _ _

theorem allPresent_link_balanced :
    ∀ (f : Nat) (arr : List (Nat × α × Nat)),
      allPresent (bst_link_balanced f arr) = true
  | 0, _ => rfl
  | _ + 1, [] => rfl
  | f + 1, q :: qs => by
      rw [bst_link_balanced, allPresent]
      rw [allPresent_link_balanced f, allPresent_link_balanced f]
      rfl

theorem height_link_balanced :
    ∀ (f : Nat) (arr : List (Nat × α × Nat)), arr.length ≤ f →
      height (bst_link_balanced f arr) = Nat.clog 2 (arr.length + 1)
  | 0, arr, h => by
      have : arr = [] := List.eq_nil_of_length_eq_zero (Nat.le_zero.mp h)
      subst this; simp [bst_link_balanced, height]
  | _ + 1, [], _ => by simp [bst_link_balanced, height]
  | f + 1, q :: qs, h => by
      rw [bst_link_balanced, height]
      have htake : ((q :: qs).take (qs.length / 2)).length ≤ f := by
        simp only [List.length_take, List.length_cons]
        have := Nat.div_le_self qs.length 2
        simp only [List.length_cons] at h
        omega
      have hdrop : ((q :: qs).drop (qs.length / 2 + 1)).length ≤ f := by
        simp only [List.length_drop, List.length_cons]
        simp only [List.length_cons] at h
        omega
      rw [height_link_balanced f _ htake, height_link_balanced f _ hdrop]
      have hlt : (List.take (qs.length / 2) (q :: qs)).length = qs.length / 2 := by
        simp only [List.length_take, List.length_cons]
        have := Nat.div_le_self qs.length 2
        omega
      have hld : (List.drop (qs.length / 2 + 1) (q :: qs)).length
          = qs.length - qs.length / 2 := by
        simp only [List.length_drop, List.length_cons]
        omega
      rw [hlt, hld]
      have hmax : max (Nat.clog 2 (qs.length / 2 + 1))
            (Nat.clog 2 (qs.length - qs.length / 2 + 1))
          = Nat.clog 2 (qs.length - qs.length / 2 + 1) :=
        Nat.max_eq_right (Nat.clog_mono_right 2 (by omega))
      rw [hmax]
      have h2 : (2 : Nat) ≤ qs.length + 1 + 1 := by omega
      rw [show (q :: qs).length + 1 = qs.length + 1 + 1 from by simp]
      rw [Nat.clog_of_two_le (by norm_num) h2]
      have : (qs.length + 1 + 1 + 2 - 1) / 2 = qs.length - qs.length / 2 + 1 := by
        omega
      rw [this]
      omega

theorem scan_root_spec (i : Nat) (x : α × Nat) :
    ∀ (l1 : List (Nat × α × Nat)) (l2 : List (Nat × α × Nat)),
      (∀ y ∈ l1, y.1 ≠ i) →
      bst_scan_root i (l1 ++ (i, x) :: l2) = some l1.length
  | [], l2, _ => by simp [bst_scan_root]
  | y :: l1, l2, h => by
      rw [List.cons_append, bst_scan_root]
      rw [if_neg (h y (List.mem_cons_self y l1))]
      rw [scan_root_spec i x l1 l2 (fun z hz => h z (List.mem_cons_of_mem y hz))]
      simp

theorem rebalance_rebuild (i : Nat) (p : α) (sz : Nat) (l r : NTree α)
    (hap : allPresent (.node i (some (p, sz)) l r) = true)
    (hnd : (idsOf (.node i (some (p, sz)) l r)).Nodup)
    (hn : 2 ≤ (payloads (.node i (some (p, sz)) l r)).length) :
    bin_search_tree_rebalance (.node i (some (p, sz)) l r) =
      .ok (.node i (some (p, sz))
            (bst_link_balanced (fillInorder l).length (fillInorder l))
            (bst_link_balanced (fillInorder r).length (fillInorder r))) := by
  have hap' := hap
  simp only [allPresent, Bool.and_eq_true] at hap'
  have hfillT : fillInorder (.node i (some (p, sz)) l r)
      = fillInorder l ++ (i, p, sz) :: fillInorder r := rfl
  have hids : idsOf (.node i (some (p, sz)) l r) = idsOf l ++ i :: idsOf r := rfl
  have hnotl : ∀ y ∈ fillInorder l, y.1 ≠ i := by
    intro y hy
    have hmem : y.1 ∈ idsOf l := by
      rw [idsOf_eq_fill_map l hap'.1]
      exact List.mem_map_of_mem _ hy
    rw [hids] at hnd
    have hdisj := (List.nodup_append.mp hnd).2.2
    intro hEq
    exact hdisj hmem (hEq ▸ List.mem_cons_self i _)
  have hlen : (payloads (.node i (some (p, sz)) l r)).length
      = (fillInorder (.node i (some (p, sz)) l r)).length := by
    rw [payloads_eq_fill_map]; simp
  rw [bin_search_tree_rebalance, count_nodes_ok _ hap]
  simp only
  rw [if_neg (by omega)]
  rw [hfillT, scan_root_spec i (p, sz) (fillInorder l) (fillInorder r) hnotl]
  simp only
  have htake : (fillInorder l ++ (i, p, sz) :: fillInorder r).take (fillInorder l).length
      = fillInorder l := List.take_left _ _
  have hdrop : (fillInorder l ++ (i, p, sz) :: fillInorder r).drop
      ((fillInorder l).length + 1) = fillInorder r := by
    have : fillInorder l ++ (i, p, sz) :: fillInorder r
        = (fillInorder l ++ [(i, p, sz)]) ++ fillInorder r := by simp
    rw [this]
    have hl : (fillInorder l ++ [(i, p, sz)]).length = (fillInorder l).length + 1 := by
      simp
    rw [← hl]
    exact List.drop_left _ _
  rw [htake, hdrop]
  have hsum : (payloads (.node i (some (p, sz)) l r)).length
      = (fillInorder l).length + 1 + (fillInorder r).length := by
    rw [hlen, hfillT]; simp; omega
  by_cases h0 : 0 < (fillInorder l).length
  · rw [if_pos h0]
    by_cases h1 : (fillInorder l).length + 1 < (payloads (.node i (some (p, sz)) l r)).length
    · rw [if_pos h1]
    · rw [if_neg h1]
      have : fillInorder r = [] := List.eq_nil_of_length_eq_zero (by omega)
      rw [this, link_balanced_nil]
  · rw [if_neg h0]
    have hl0 : fillInorder l = [] := List.eq_nil_of_length_eq_zero (by omega)
    by_cases h1 : (fillInorder l).length + 1 < (payloads (.node i (some (p, sz)) l r)).length
    · rw [if_pos h1, hl0, link_balanced_nil]
    · rw [if_neg h1]
      have hr0 : fillInorder r = [] := List.eq_nil_of_length_eq_zero (by omega)
      rw [hl0, hr0, link_balanced_nil]

theorem rebalance_spec {cmp : α → α → Int} (hc : IsStrictCmp cmp) (t : NTree α)
    (hv : ValidTree cmp t) :
    ∃ t', bin_search_tree_rebalance t = .ok t' ∧
      fillInorder t' = fillInorder t ∧
      idsOf t' = idsOf t ∧
      payloads t' = payloads t ∧
      t'.rootId = t.rootId ∧
      ValidTree cmp t' := by
  match t with
  | .nil => exact absurd hv (by simp [ValidTree])
  | .node i none l r =>
      obtain ⟨hl, hr⟩ := hv
      subst hl; subst hr
      exact ⟨.node i none .nil .nil, rfl, rfl, rfl, rfl, rfl, rfl, rfl⟩
  | .node i (some (p, sz)) l r =>
      obtain ⟨hap, hord, hnd⟩ := hv
      by_cases hn : 2 ≤ (payloads (NTree.node i (some (p, sz)) l r)).length
      · rw [rebalance_rebuild i p sz l r hap hnd hn]
        set L := bst_link_balanced (fillInorder l).length (fillInorder l) with hL
        set R := bst_link_balanced (fillInorder r).length (fillInorder r) with hR
        have hapL : allPresent L = true := allPresent_link_balanced _ _
        have hapR : allPresent R = true := allPresent_link_balanced _ _
        have hfL : fillInorder L = fillInorder l := fill_link_balanced _ _ le_rfl
        have hfR : fillInorder R = fillInorder r := fill_link_balanced _ _ le_rfl
        have hapT' : allPresent (NTree.node i (some (p, sz)) L R) = true := by
          simp [allPresent, hapL, hapR]
        have hfillT' : fillInorder (NTree.node i (some (p, sz)) L R)
            = fillInorder (NTree.node i (some (p, sz)) l r) := by
          show fillInorder L ++ (i, p, sz) :: fillInorder R
            = fillInorder l ++ (i, p, sz) :: fillInorder r
          rw [hfL, hfR]
        have hidsT' : idsOf (NTree.node i (some (p, sz)) L R)
            = idsOf (NTree.node i (some (p, sz)) l r) := by
          rw [idsOf_eq_fill_map _ hapT', idsOf_eq_fill_map _ hap, hfillT']
        have hpayT' : payloads (NTree.node i (some (p, sz)) L R)
            = payloads (NTree.node i (some (p, sz)) l r) := by
          rw [payloads_eq_fill_map, payloads_eq_fill_map, hfillT']
        refine ⟨_, rfl, hfillT', hidsT', hpayT', rfl, hapT', ?_, ?_⟩
        · rw [orderedLoc_iff_pairwise hc _ hapT', hpayT']
          rw [← orderedLoc_iff_pairwise hc _ hap]
          exact hord
        · rw [hidsT']; exact hnd
      · refine ⟨.node i (some (p, sz)) l r, ?_, rfl, rfl, rfl, rfl, hap, hord, hnd⟩
        rw [bin_search_tree_rebalance, count_nodes_ok _ hap]
        simp only
        rw [if_pos (by omega)]

theorem spliceMin_spec :
    ∀ (j : Nat) (d : Option (α × Nat)) (l r : NTree α),
      allPresent (NTree.node j d l r) = true →
      ∃ m msz mid t',
        spliceMin (NTree.node j d l r) = (some (m, msz), mid, t') ∧
        payloads (NTree.node j d l r) = m :: payloads t' ∧
        allPresent t' = true ∧
        (idsOf (NTree.node j d l r)).Perm (mid :: idsOf t')
  | j, d, .nil, r, h => by
      match d with
      | none => simp [allPresent] at h
      | some (m, msz) =>
          simp only [allPresent, Bool.and_eq_true] at h
          exact ⟨m, msz, j, r, rfl, rfl, h.2, List.Perm.refl _⟩
  | j, d, .node j2 e ll lr, r, h => by
      match d with
      | none => simp [allPresent] at h
      | some (dp, dsz) =>
          simp only [allPresent, Bool.and_eq_true] at h
          obtain ⟨hapl, hapr⟩ := h
          obtain ⟨m, msz, mid, t'', hsp, hpay, hap'', hperm⟩ :=
            spliceMin_spec j2 e ll lr hapl
          refine ⟨m, msz, mid, .node j (some (dp, dsz)) t'' r, ?_, ?_, ?_, ?_⟩
          · rw [spliceMin, hsp]
          · show payloads (NTree.node j2 e ll lr) ++ dp :: payloads r = _
            rw [hpay]
            rfl
          · simp only [allPresent, Bool.and_eq_true]
            exact ⟨hap'', hapr⟩
          · show (idsOf (NTree.node j2 e ll lr) ++ j :: idsOf r).Perm
              (mid :: (idsOf t'' ++ j :: idsOf r))
            exact hperm.append_right (j :: idsOf r)

theorem insert_eqn_sentinel (cmp : α → α → Int) (fresh i : Nat) (l r : NTree α)
    (data : α) (dsz : Nat) :
    bin_search_tree_insert_node cmp fresh (.node i none l r) data dsz =
      (if dsz = 0 then .error .insertFailed
       else match l, r with
        | .nil, .nil => .ok (.node i (some (data, dsz)) .nil .nil, i, false)
        | _, _ => .error .malformed) := rfl

theorem insert_eqn_node (cmp : α → α → Int) (fresh i : Nat) (p : α) (psz : Nat)
    (l r : NTree α) (data : α) (dsz : Nat) :
    bin_search_tree_insert_node cmp fresh (.node i (some (p, psz)) l r) data dsz =
      (if dsz = 0 then .error .insertFailed
       else if cmp data p = 0 then .ok (.node i (some (p, psz)) l r, i, false)
       else if cmp data p < 0 then
        match l with
        | .nil => .ok (.node i (some (p, psz))
            (.node fresh (some (data, dsz)) .nil .nil) r, fresh, true)
        | _ =>
            match bin_search_tree_insert_node cmp fresh l data dsz with
            | .error e => .error e
            | .ok (l', rid, al) => .ok (.node i (some (p, psz)) l' r, rid, al)
       else
        match r with
        | .nil => .ok (.node i (some (p, psz)) l
            (.node fresh (some (data, dsz)) .nil .nil), fresh, true)
        | _ =>
            match bin_search_tree_insert_node cmp fresh r data dsz with
            | .error e => .error e
            | .ok (r', rid, al) => .ok (.node i (some (p, psz)) l r', rid, al)) := rfl

theorem contains_eqn_node (cmp : α → α → Int) (i : Nat) (p : α) (psz : Nat)
    (l r : NTree α) (key : α) :
    bin_search_tree_contains cmp (.node i (some (p, psz)) l r) key =
      (if cmp key p = 0 then .ok (some i, 1)
       else if cmp key p < 0 then
        match l with
        | .nil => .ok (none, 1)
        | _ =>
            match bin_search_tree_contains cmp l key with
            | .error e => .error e
            | .ok (res, k) => .ok (res, k + 1)
       else
        match r with
        | .nil => .ok (none, 1)
        | _ =>
            match bin_search_tree_contains cmp r key with
            | .error e => .error e
            | .ok (res, k) => .ok (res, k + 1)) := rfl

theorem delete_go_eqn_node (cmp : α → α → Int) (i : Nat) (p : α) (sz : Nat)
    (l r : NTree α) (key : α) :
    bst_delete_go cmp (.node i (some (p, sz)) l r) key =
      (if cmp key p = 0 then
        match l, r with
        | .nil, .nil => .ok (.nil, [p], [i])
        | .nil, .node rj rd rl rr => .ok (.node rj rd rl rr, [p], [i])
        | .node lj ld ll lr, .nil => .ok (.node lj ld ll lr, [p], [i])
        | .node lj ld ll lr, .node rj rd rl rr =>
            match rd with
            | none => .error .malformed
            | some rv =>
                let x := spliceMin (.node rj (some rv) rl rr)
                .ok (.node i x.1 (.node lj ld ll lr) x.2.2, [p], [x.2.1])
       else if cmp key p < 0 then
        match l with
        | .nil => .ok (.node i (some (p, sz)) .nil r, [], [])
        | _ =>
            match bst_delete_go cmp l key with
            | .error e => .error e
            | .ok (l', rel, fr) => .ok (.node i (some (p, sz)) l' r, rel, fr)
       else
        match r with
        | .nil => .ok (.node i (some (p, sz)) l .nil, [], [])
        | _ =>
            match bst_delete_go cmp r key with
            | .error e => .error e
            | .ok (r', rel, fr) => .ok (.node i (some (p, sz)) l r', rel, fr)) := rfl

theorem delete_node_eqn_node (cmp : α → α → Int) (i : Nat) (p : α) (sz : Nat)
    (l r : NTree α) (key : α) :
    bin_search_tree_delete_node cmp (.node i (some (p, sz)) l r) key =
      (if cmp key p = 0 then
        match l, r with
        | .nil, .nil => .ok (.node i none .nil .nil, [p], [])
        | .node vj vd vl vr, .nil => .ok (.node i vd vl vr, [p], [vj])
        | .nil, .node vj vd vl vr => .ok (.node i vd vl vr, [p], [vj])
        | .node lj ld ll lr, .node rj rd rl rr =>
            match rd with
            | none => .error .malformed
            | some rv =>
                let x := spliceMin (.node rj (some rv) rl rr)
                .ok (.node i x.1 (.node lj ld ll lr) x.2.2, [p], [x.2.1])
       else if cmp key p < 0 then
        match l with
        | .nil => .ok (.node i (some (p, sz)) .nil r, [], [])
        | _ =>
            match bst_delete_go cmp l key with
            | .error e => .error e
            | .ok (l', rel, fr) => .ok (.node i (some (p, sz)) l' r, rel, fr)
       else
        match r with
        | .nil => .ok (.node i (some (p, sz)) l .nil, [], [])
        | _ =>
            match bst_delete_go cmp r key with
            | .error e => .error e
            | .ok (r', rel, fr) => .ok (.node i (some (p, sz)) l r', rel, fr)) := rfl

theorem delete_go_absent {cmp : α → α → Int} (key : α) :
    ∀ (t : NTree α), t ≠ .nil → allPresent t = true →
      (∀ q ∈ payloads t, cmp key q ≠ 0) →
      bst_delete_go cmp t key = .ok (t, [], []) := by
  intro t
  induction t with
  | nil => intro hne _ _; exact absurd rfl hne
  | node i d l r ihl ihr =>
      intro _ hap habs
      match d with
      | none => simp [allPresent] at hap
      | some (p, sz) =>
          simp only [allPresent, Bool.and_eq_true] at hap
          have hp : cmp key p ≠ 0 := habs p (by simp [payloads])
          rw [delete_go_eqn_node, if_neg hp]
          by_cases hlt : cmp key p < 0
          · rw [if_pos hlt]
            cases l with
            | nil => rfl
            | node lj ld ll lr =>
                simp only
                rw [ihl (by simp) hap.1
                  (fun q hq => habs q (by simp [payloads]; exact Or.inl hq))]
          · rw [if_neg hlt]
            cases r with
            | nil => rfl
            | node rj rd rl rr =>
                simp only
                rw [ihr (by simp) hap.2
                  (fun q hq => habs q (by simp [payloads]; exact Or.inr (Or.inr hq)))]

theorem delete_go_present {cmp : α → α → Int} (hc : IsStrictCmp cmp) (key : α) :
    ∀ (t : NTree α), allPresent t = true → orderedLoc cmp t = true →
      (∃ q, q ∈ payloads t ∧ cmp key q = 0) →
      ∃ q' l1 l2 t' fid,
        bst_delete_go cmp t key = .ok (t', [q'], [fid]) ∧
        cmp key q' = 0 ∧
        payloads t = l1 ++ q' :: l2 ∧
        payloads t' = l1 ++ l2 ∧
        allPresent t' = true ∧
        orderedLoc cmp t' = true ∧
        (idsOf t).Perm (fid :: idsOf t') := by
  intro t
  induction t with
  | nil => rintro _ _ ⟨q, hq, _⟩; simp [payloads] at hq
  | node i d l r ihl ihr =>
      rintro hap hord ⟨q, hq, hkq⟩
      match d with
      | none => simp [allPresent] at hap
      | some (p, sz) =>
          simp only [allPresent, Bool.and_eq_true] at hap
          have hordp := hord
          simp only [orderedLoc, Bool.and_eq_true, List.all_eq_true,
            decide_eq_true_eq] at hordp
          obtain ⟨⟨⟨hlp, hpr⟩, hol⟩, hor⟩ := hordp
          by_cases heq : cmp key p = 0
          · rw [bst_delete_go.eq_def]
            simp only
            rw [if_pos heq]
            cases l with
            | nil =>
                cases r with
                | nil =>
                    exact ⟨p, [], [], .nil, i, rfl, heq, rfl, rfl, rfl, rfl,
                      List.Perm.refl _⟩
                | node rj rd rl rr =>
                    refine ⟨p, [], payloads (NTree.node rj rd rl rr),
                      .node rj rd rl rr, i, rfl, heq, rfl, rfl, hap.2, hor,
                      List.Perm.refl _⟩
            | node lj ld ll lr =>
                cases r with
                | nil =>
                    refine ⟨p, payloads (NTree.node lj ld ll lr), [],
                      .node lj ld ll lr, i, rfl, heq, by simp [payloads],
                      by simp, hap.1, hol, ?_⟩
                    show (idsOf (NTree.node lj ld ll lr) ++ [i]).Perm _
                    exact List.perm_append_singleton i _
                | node rj rd rl rr =>
                    simp only
                    have hapr : allPresent (NTree.node rj rd rl rr) = true := hap.2
                    match rd, hapr with
                    | some (rv1, rv2), hapr =>
                    obtain ⟨m, msz, mid, r'', hsp, hpayr, hapr'', hpermr⟩ :=
                      spliceMin_spec rj (some (rv1, rv2)) rl rr hapr
                    simp only
                    rw [hsp]
                    refine ⟨p, payloads (NTree.node lj ld ll lr),
                      payloads (NTree.node rj (some (rv1, rv2)) rl rr),
                      .node i (some (m, msz)) (.node lj ld ll lr) r'', mid,
                      rfl, heq, rfl, ?_, ?_, ?_, ?_⟩
                    · show payloads (NTree.node lj ld ll lr) ++ m :: payloads r'' = _
                      rw [← hpayr]
                    · simp only [allPresent, Bool.and_eq_true]
                      exact ⟨hap.1, hapr''⟩
                    · have hpm : cmp p m < 0 := hpr m (by rw [hpayr]; exact List.mem_cons_self _ _)
                      have hpw : (payloads (NTree.node rj (some (rv1, rv2)) rl rr)).Pairwise
                          (fun a b => cmp a b < 0) :=
                        (orderedLoc_iff_pairwise hc _ hapr).mp hor
                      rw [hpayr, List.pairwise_cons] at hpw
                      simp only [orderedLoc, Bool.and_eq_true, List.all_eq_true,
                        decide_eq_true_eq]
                      refine ⟨⟨⟨?_, hpw.1⟩, hol⟩, ?_⟩
                      · intro x hx
                        exact hc.lt_trans x p m (hlp x hx) hpm
                      · exact (orderedLoc_iff_pairwise hc _ hapr'').mpr hpw.2
                    · show (idsOf (NTree.node lj ld ll lr) ++
                          i :: idsOf (NTree.node rj (some (rv1, rv2)) rl rr)).Perm
                          (mid :: (idsOf (NTree.node lj ld ll lr) ++ i :: idsOf r''))
                      have h1 : (i :: idsOf (NTree.node rj (some (rv1, rv2)) rl rr)).Perm
                          (mid :: i :: idsOf r'') :=
                        List.Perm.trans (List.Perm.cons i hpermr) (List.Perm.swap mid i _)
                      exact List.Perm.trans (List.Perm.append_left _ h1)
                        (List.perm_middle)
          · by_cases hlt : cmp key p < 0
            · have hql : q ∈ payloads l := by
                have hmem : q ∈ payloads l ++ p :: payloads r := hq
                rcases List.mem_append.mp hmem with h | h
                · exact h
                · rcases List.mem_cons.mp h with rfl | h
                  · exact absurd hkq heq
                  · exfalso
                    have h1 : cmp q p = cmp key p := (hc.eq_congr key q p hkq).symm
                    have h2 : cmp q p = -cmp p q := hc.comm p q
                    have h3 := hpr q h
                    omega
              have hlne : l ≠ .nil := by
                intro hEq
                rw [hEq] at hql
                simp [payloads] at hql
              cases l with
              | nil => exact absurd rfl hlne
              | node lj ld ll lr =>
                  obtain ⟨q', l1, l2, l'', fid, hgo, hkq', hsplit, hpay'',
                    hap'', hord'', hperm''⟩ := ihl hap.1 hol ⟨q, hql, hkq⟩
                  rw [delete_go_eqn_node, if_neg heq, if_pos hlt]
                  simp only
                  rw [hgo]
                  refine ⟨q', l1, l2 ++ p :: payloads r,
                    .node i (some (p, sz)) l'' r, fid, rfl, hkq', ?_, ?_, ?_, ?_, ?_⟩
                  · show payloads (NTree.node lj ld ll lr) ++ p :: payloads r = _
                    rw [hsplit]
                    simp
                  · show payloads l'' ++ p :: payloads r = _
                    rw [hpay'']
                    simp
                  · simp only [allPresent, Bool.and_eq_true]
                    exact ⟨hap'', hap.2⟩
                  · simp only [orderedLoc, Bool.and_eq_true, List.all_eq_true,
                      decide_eq_true_eq]
                    refine ⟨⟨⟨?_, hpr⟩, hord''⟩, hor⟩
                    intro x hx
                    refine hlp x ?_
                    rw [hpay''] at hx
                    rw [hsplit]
                    rcases List.mem_append.mp hx with h | h
                    · exact List.mem_append.mpr (Or.inl h)
                    · exact List.mem_append.mpr (Or.inr (List.mem_cons_of_mem _ h))
                  · show (idsOf (NTree.node lj ld ll lr) ++ i :: idsOf r).Perm
                      (fid :: (idsOf l'' ++ i :: idsOf r))
                    exact hperm''.append_right _
            · have h0 : 0 < cmp key p := by
                rcases lt_trichotomy (cmp key p) 0 with h | h | h
                · exact absurd h hlt
                · exact absurd h heq
                · exact h
              have hqr : q ∈ payloads r := by
                have hmem : q ∈ payloads l ++ p :: payloads r := hq
                rcases List.mem_append.mp hmem with h | h
                · exfalso
                  have h1 : cmp q p = cmp key p := (hc.eq_congr key q p hkq).symm
                  have h2 := hlp q h
                  omega
                · rcases List.mem_cons.mp h with rfl | h
                  · exact absurd hkq heq
                  · exact h
              have hrne : r ≠ .nil := by
                intro hEq
                rw [hEq] at hqr
                simp [payloads] at hqr
              cases r with
              | nil => exact absurd rfl hrne
              | node rj rd rl rr =>
                  obtain ⟨q', l1, l2, r'', fid, hgo, hkq', hsplit, hpay'',
                    hap'', hord'', hperm''⟩ := ihr hap.2 hor ⟨q, hqr, hkq⟩
                  rw [delete_go_eqn_node, if_neg heq, if_neg hlt]
                  simp only
                  rw [hgo]
                  refine ⟨q', payloads l ++ p :: l1, l2,
                    .node i (some (p, sz)) l r'', fid, rfl, hkq', ?_, ?_, ?_, ?_, ?_⟩
                  · show payloads l ++ p :: payloads (NTree.node rj rd rl rr) = _
                    rw [hsplit]
                    simp
                  · show payloads l ++ p :: payloads r'' = _
                    rw [hpay'']
                    simp
                  · simp only [allPresent, Bool.and_eq_true]
                    exact ⟨hap.1, hap''⟩
                  · simp only [orderedLoc, Bool.and_eq_true, List.all_eq_true,
                      decide_eq_true_eq]
                    refine ⟨⟨⟨hlp, ?_⟩, hol⟩, hord''⟩
                    intro x hx
                    refine hpr x ?_
                    rw [hpay''] at hx
                    rw [hsplit]
                    rcases List.mem_append.mp hx with h | h
                    · exact List.mem_append.mpr (Or.inl h)
                    · exact List.mem_append.mpr (Or.inr (List.mem_cons_of_mem _ h))
                  · show (idsOf l ++ i :: idsOf (NTree.node rj rd rl rr)).Perm
                      (fid :: (idsOf l ++ i :: idsOf r''))
                    have h1 : (i :: idsOf (NTree.node rj rd rl rr)).Perm
                        (fid :: i :: idsOf r'') :=
                      List.Perm.trans (List.Perm.cons i hperm'') (List.Perm.swap fid i _)
                    exact List.Perm.trans (List.Perm.append_left _ h1)
                      (List.perm_middle)

theorem perm_root_one_left (A B : List Nat) (i vj : Nat) :
    ((A ++ vj :: B) ++ [i]).Perm (vj :: (A ++ i :: B)) := by
  have s1 : ((A ++ vj :: B) ++ [i]).Perm ((vj :: (A ++ B)) ++ [i]) :=
    List.perm_middle.append_right [i]
  have s2 : ((A ++ B) ++ [i]).Perm (i :: (A ++ B)) := List.perm_append_singleton i _
  have s3 : (i :: (A ++ B)).Perm (A ++ i :: B) := List.perm_middle.symm
  exact s1.trans ((s2.trans s3).cons vj)

theorem perm_root_one_right (A B : List Nat) (i vj : Nat) :
    (i :: (A ++ vj :: B)).Perm (vj :: (A ++ i :: B)) := by
  have s1 : (i :: (A ++ vj :: B)).Perm (i :: vj :: (A ++ B)) :=
    List.perm_middle.cons i
  have s2 : (i :: vj :: (A ++ B)).Perm (vj :: i :: (A ++ B)) := List.Perm.swap vj i _
  have s3 : (i :: (A ++ B)).Perm (A ++ i :: B) := List.perm_middle.symm
  exact s1.trans (s2.trans (s3.cons vj))

theorem delete_absent {cmp : α → α → Int} (key : α) (t : NTree α)
    (hv : ValidTree cmp t) (habs : ∀ q ∈ payloads t, cmp key q ≠ 0) :
    bin_search_tree_delete_node cmp t key = .ok (t, [], []) := by
  match t with
  | .nil => exact absurd hv (by simp [ValidTree])
  | .node i none l r =>
      obtain ⟨hl, hr⟩ := hv
      subst hl; subst hr
      rfl
  | .node i (some (p, sz)) l r =>
      obtain ⟨hap, hord, hnd⟩ := hv
      simp only [allPresent, Bool.and_eq_true] at hap
      have hp : cmp key p ≠ 0 := habs p (by simp [payloads])
      rw [delete_node_eqn_node, if_neg hp]
      by_cases hlt : cmp key p < 0
      · rw [if_pos hlt]
        cases l with
        | nil => rfl
        | node lj ld ll lr =>
            simp only
            rw [delete_go_absent key _ (by simp) hap.1
              (fun q hq => habs q (by simp [payloads]; exact Or.inl hq))]
      · rw [if_neg hlt]
        cases r with
        | nil => rfl
        | node rj rd rl rr =>
            simp only
            rw [delete_go_absent key _ (by simp) hap.2
              (fun q hq => habs q (by simp [payloads]; exact Or.inr (Or.inr hq)))]

theorem delete_present {cmp : α → α → Int} (hc : IsStrictCmp cmp) (key : α)
    (t : NTree α) (hv : ValidTree cmp t)
    (hex : ∃ q, q ∈ payloads t ∧ cmp key q = 0) :
    ∃ q' l1 l2 t' fr,
      bin_search_tree_delete_node cmp t key = .ok (t', [q'], fr) ∧
      cmp key q' = 0 ∧
      payloads t = l1 ++ q' :: l2 ∧
      payloads t' = l1 ++ l2 ∧
      ValidTree cmp t' ∧
      t'.rootId = t.rootId ∧
      (idsOf t).Perm (fr ++ idsOf t') ∧
      fr.length ≤ 1 := by
  match t with
  | .nil => exact absurd hv (by simp [ValidTree])
  | .node i none l r =>
      obtain ⟨hl, hr⟩ := hv
      subst hl; subst hr
      obtain ⟨q, hq, _⟩ := hex
      simp [payloads] at hq
  | .node i (some (p, sz)) l r =>
      obtain ⟨hap, hord, hnd⟩ := hv
      have hapc := hap
      simp only [allPresent, Bool.and_eq_true] at hapc
      have hordp := hord
      simp only [orderedLoc, Bool.and_eq_true, List.all_eq_true,
        decide_eq_true_eq] at hordp
      obtain ⟨⟨⟨hlp, hpr⟩, hol⟩, hor⟩ := hordp
      obtain ⟨q, hq, hkq⟩ := hex
      by_cases heq : cmp key p = 0
      · rw [delete_node_eqn_node, if_pos heq]
        cases l with
        | nil =>
            cases r with
            | nil =>
                exact ⟨p, [], [], .node i none .nil .nil, [], rfl, heq, rfl, rfl,
                  ⟨rfl, rfl⟩, rfl, List.Perm.refl _, by simp⟩
            | node vj vd vl vr =>
                match vd, hapc.2 with
                | some (vp, vsz), hapv =>
                simp only [allPresent, Bool.and_eq_true] at hapv
                refine ⟨p, [], payloads (NTree.node vj (some (vp, vsz)) vl vr),
                  .node i (some (vp, vsz)) vl vr, [vj], rfl, heq, rfl, rfl,
                  ?_, rfl, ?_, by simp⟩
                · have hperm : (idsOf (NTree.node i (some (p, sz)) NTree.nil
                      (NTree.node vj (some (vp, vsz)) vl vr))).Perm
                      (vj :: idsOf (NTree.node i (some (vp, vsz)) vl vr)) := by
                    show (List.nil ++ i :: (idsOf vl ++ vj :: idsOf vr)).Perm
                      (vj :: (idsOf vl ++ i :: idsOf vr))
                    exact perm_root_one_right (idsOf vl) (idsOf vr) i vj
                  refine ⟨?_, ?_, ?_⟩
                  · simp only [allPresent, Bool.and_eq_true]
                    exact hapv
                  · exact hor
                  · exact ((hperm.nodup_iff).mp hnd).of_cons
                · show (List.nil ++ i :: (idsOf vl ++ vj :: idsOf vr)).Perm
                    ([vj] ++ (idsOf vl ++ i :: idsOf vr))
                  exact perm_root_one_right (idsOf vl) (idsOf vr) i vj
        | node vj vd vl vr =>
            cases r with
            | nil =>
                match vd, hapc.1 with
                | some (vp, vsz), hapv =>
                simp only [allPresent, Bool.and_eq_true] at hapv
                refine ⟨p, payloads (NTree.node vj (some (vp, vsz)) vl vr), [],
                  .node i (some (vp, vsz)) vl vr, [vj], rfl, heq,
                  by simp [payloads], by simp [payloads], ?_, rfl, ?_, by simp⟩
                · have hperm : (idsOf (NTree.node i (some (p, sz))
                      (NTree.node vj (some (vp, vsz)) vl vr) NTree.nil)).Perm
                      (vj :: idsOf (NTree.node i (some (vp, vsz)) vl vr)) := by
                    show ((idsOf vl ++ vj :: idsOf vr) ++ [i]).Perm
                      (vj :: (idsOf vl ++ i :: idsOf vr))
                    exact perm_root_one_left (idsOf vl) (idsOf vr) i vj
                  refine ⟨?_, ?_, ?_⟩
                  · simp only [allPresent, Bool.and_eq_true]
                    exact hapv
                  · exact hol
                  · exact ((hperm.nodup_iff).mp hnd).of_cons
                · show ((idsOf vl ++ vj :: idsOf vr) ++ [i]).Perm
                    ([vj] ++ (idsOf vl ++ i :: idsOf vr))
                  exact perm_root_one_left (idsOf vl) (idsOf vr) i vj
            | node rj rd rl rr =>
                simp only
                match rd, hapc.2 with
                | some (rv1, rv2), hapr =>
                obtain ⟨m, msz, mid, r'', hsp, hpayr, hapr'', hpermr⟩ :=
                  spliceMin_spec rj (some (rv1, rv2)) rl rr hapr
                simp only
                rw [hsp]
                have hpm : cmp p m < 0 :=
                  hpr m (by rw [hpayr]; exact List.mem_cons_self _ _)
                have hpw : (payloads (NTree.node rj (some (rv1, rv2)) rl rr)).Pairwise
                    (fun a b => cmp a b < 0) :=
                  (orderedLoc_iff_pairwise hc _ hapr).mp hor
                rw [hpayr, List.pairwise_cons] at hpw
                have hperm : (idsOf (NTree.node i (some (p, sz))
                    (NTree.node vj vd vl vr)
                    (NTree.node rj (some (rv1, rv2)) rl rr))).Perm
                    (mid :: idsOf (.node i (some (m, msz)) (.node vj vd vl vr) r'')) := by
                  show (idsOf (NTree.node vj vd vl vr) ++
                      i :: idsOf (NTree.node rj (some (rv1, rv2)) rl rr)).Perm
                      (mid :: (idsOf (NTree.node vj vd vl vr) ++ i :: idsOf r''))
                  have h1 : (i :: idsOf (NTree.node rj (some (rv1, rv2)) rl rr)).Perm
                      (mid :: i :: idsOf r'') :=
                    List.Perm.trans (List.Perm.cons i hpermr) (List.Perm.swap mid i _)
                  exact List.Perm.trans (List.Perm.append_left _ h1) List.perm_middle
                refine ⟨p, payloads (NTree.node vj vd vl vr),
                  payloads (NTree.node rj (some (rv1, rv2)) rl rr),
                  .node i (some (m, msz)) (.node vj vd vl vr) r'', [mid],
                  rfl, heq, rfl, ?_, ⟨?_, ?_, ?_⟩, rfl, hperm, by simp⟩
                · show payloads (NTree.node vj vd vl vr) ++ m :: payloads r'' = _
                  rw [← hpayr]
                · simp only [allPresent, Bool.and_eq_true]
                  exact ⟨hapc.1, hapr''⟩
                · simp only [orderedLoc, Bool.and_eq_true, List.all_eq_true,
                    decide_eq_true_eq]
                  refine ⟨⟨⟨?_, hpw.1⟩, hol⟩, ?_⟩
                  · intro x hx
                    exact hc.lt_trans x p m (hlp x hx) hpm
                  · exact (orderedLoc_iff_pairwise hc _ hapr'').mpr hpw.2
                · exact (hperm.nodup_iff.mp hnd).of_cons
      · by_cases hlt : cmp key p < 0
        · have hql : q ∈ payloads l := by
            have hmem : q ∈ payloads l ++ p :: payloads r := hq
            rcases List.mem_append.mp hmem with h | h
            · exact h
            · rcases List.mem_cons.mp h with rfl | h
              · exact absurd hkq heq
              · exfalso
                have h1 : cmp q p = cmp key p := (hc.eq_congr key q p hkq).symm
                have h2 : cmp q p = -cmp p q := hc.comm p q
                have h3 := hpr q h
                omega
          cases l with
          | nil => simp [payloads] at hql
          | node lj ld ll lr =>
              obtain ⟨q', l1, l2, l'', fid, hgo, hkq', hsplit, hpay'',
                hap'', hord'', hperm''⟩ :=
                delete_go_present hc key _ hapc.1 hol ⟨q, hql, hkq⟩
              rw [delete_node_eqn_node, if_neg heq, if_pos hlt]
              simp only
              rw [hgo]
              have hperm : (idsOf (NTree.node i (some (p, sz))
                  (NTree.node lj ld ll lr) r)).Perm
                  (fid :: idsOf (.node i (some (p, sz)) l'' r)) := by
                show (idsOf (NTree.node lj ld ll lr) ++ i :: idsOf r).Perm
                  (fid :: (idsOf l'' ++ i :: idsOf r))
                exact hperm''.append_right _
              refine ⟨q', l1, l2 ++ p :: payloads r,
                .node i (some (p, sz)) l'' r, [fid], rfl, hkq', ?_, ?_,
                ⟨?_, ?_, ?_⟩, rfl, hperm, by simp⟩
              · show payloads (NTree.node lj ld ll lr) ++ p :: payloads r = _
                rw [hsplit]; simp
              · show payloads l'' ++ p :: payloads r = _
                rw [hpay'']; simp
              · simp only [allPresent, Bool.and_eq_true]
                exact ⟨hap'', hapc.2⟩
              · simp only [orderedLoc, Bool.and_eq_true, List.all_eq_true,
                  decide_eq_true_eq]
                refine ⟨⟨⟨?_, hpr⟩, hord''⟩, hor⟩
                intro x hx
                refine hlp x ?_
                rw [hpay''] at hx
                rw [hsplit]
                rcases List.mem_append.mp hx with h | h
                · exact List.mem_append.mpr (Or.inl h)
                · exact List.mem_append.mpr (Or.inr (List.mem_cons_of_mem _ h))
              · exact (hperm.nodup_iff.mp hnd).of_cons
        · have hqr : q ∈ payloads r := by
            have hmem : q ∈ payloads l ++ p :: payloads r := hq
            rcases List.mem_append.mp hmem with h | h
            · exfalso
              have h1 : cmp q p = cmp key p := (hc.eq_congr key q p hkq).symm
              have h2 := hlp q h
              omega
            · rcases List.mem_cons.mp h with rfl | h
              · exact absurd hkq heq
              · exact h
          cases r with
          | nil => simp [payloads] at hqr
          | node rj rd rl rr =>
              obtain ⟨q', l1, l2, r'', fid, hgo, hkq', hsplit, hpay'',
                hap'', hord'', hperm''⟩ :=
                delete_go_present hc key _ hapc.2 hor ⟨q, hqr, hkq⟩
              rw [delete_node_eqn_node, if_neg heq, if_neg hlt]
              simp only
              rw [hgo]
              have hperm : (idsOf (NTree.node i (some (p, sz)) l
                  (NTree.node rj rd rl rr))).Perm
                  (fid :: idsOf (.node i (some (p, sz)) l r'')) := by
                show (idsOf l ++ i :: idsOf (NTree.node rj rd rl rr)).Perm
                  (fid :: (idsOf l ++ i :: idsOf r''))
                have h1 : (i :: idsOf (NTree.node rj rd rl rr)).Perm
                    (fid :: i :: idsOf r'') :=
                  List.Perm.trans (List.Perm.cons i hperm'') (List.Perm.swap fid i _)
                exact List.Perm.trans (List.Perm.append_left _ h1) List.perm_middle
              refine ⟨q', payloads l ++ p :: l1, l2,
                .node i (some (p, sz)) l r'', [fid], rfl, hkq', ?_, ?_,
                ⟨?_, ?_, ?_⟩, rfl, hperm, by simp⟩
              · show payloads l ++ p :: payloads (NTree.node rj rd rl rr) = _
                rw [hsplit]; simp
              · show payloads l ++ p :: payloads r'' = _
                rw [hpay'']; simp
              · simp only [allPresent, Bool.and_eq_true]
                exact ⟨hapc.1, hap''⟩
              · simp only [orderedLoc, Bool.and_eq_true, List.all_eq_true,
                  decide_eq_true_eq]
                refine ⟨⟨⟨hlp, ?_⟩, hol⟩, hord''⟩
                intro x hx
                refine hpr x ?_
                rw [hpay''] at hx
                rw [hsplit]
                rcases List.mem_append.mp hx with h | h
                · exact List.mem_append.mpr (Or.inl h)
                · exact List.mem_append.mpr (Or.inr (List.mem_cons_of_mem _ h))
              · exact (hperm.nodup_iff.mp hnd).of_cons

theorem validTree_of_parts {cmp : α → α → Int} (t : NTree α) (hne : t ≠ .nil)
    (hap : allPresent t = true) (hord : orderedLoc cmp t = true)
    (hnd : (idsOf t).Nodup) : ValidTree cmp t := by
  match t with
  | .nil => exact absurd rfl hne
  | .node i none l r => simp [allPresent] at hap
  | .node i (some d) l r => exact ⟨hap, hord, hnd⟩

theorem pairwise_of_valid {cmp : α → α → Int} (hc : IsStrictCmp cmp) (t : NTree α)
    (hv : ValidTree cmp t) :
    (payloads t).Pairwise (fun a b => cmp a b < 0) := by
  match t with
  | .nil => exact absurd hv (by simp [ValidTree])
  | .node i none l r =>
      obtain ⟨hl, hr⟩ := hv
      subst hl; subst hr
      simp [payloads]
  | .node i (some d) l r =>
      obtain ⟨hap, hord, _⟩ := hv
      exact (orderedLoc_iff_pairwise hc _ hap).mp hord

theorem insert_spec {cmp : α → α → Int} (hc : IsStrictCmp cmp) (fresh : Nat)
    (data : α) (dsz : Nat) (hdsz : dsz ≠ 0) :
    ∀ (t : NTree α), t ≠ .nil → allPresent t = true → orderedLoc cmp t = true →
      ∃ t' rid al,
        bin_search_tree_insert_node cmp fresh t data dsz = .ok (t', rid, al) ∧
        allPresent t' = true ∧
        orderedLoc cmp t' = true ∧
        (∀ x ∈ payloads t', x ∈ payloads t ∨ x = data) ∧
        (idsOf t' = idsOf t ∨ (idsOf t').Perm (fresh :: idsOf t)) ∧
        t'.rootId = t.rootId := by
  intro t
  induction t with
  | nil => intro hne _ _; exact absurd rfl hne
  | node i d l r ihl ihr =>
      intro _ hap hord
      match d with
      | none => simp [allPresent] at hap
      | some (p, psz) =>
          simp only [allPresent, Bool.and_eq_true] at hap
          have hordp := hord
          simp only [orderedLoc, Bool.and_eq_true, List.all_eq_true,
            decide_eq_true_eq] at hordp
          obtain ⟨⟨⟨hlp, hpr⟩, hol⟩, hor⟩ := hordp
          rw [insert_eqn_node, if_neg hdsz]
          by_cases heq : cmp data p = 0
          · rw [if_pos heq]
            exact ⟨.node i (some (p, psz)) l r, i, false, rfl,
              by simp [allPresent, hap.1, hap.2], hord,
              fun x hx => Or.inl hx, Or.inl rfl, rfl⟩
          · rw [if_neg heq]
            by_cases hlt : cmp data p < 0
            · rw [if_pos hlt]
              cases l with
              | nil =>
                  refine ⟨.node i (some (p, psz))
                      (.node fresh (some (data, dsz)) .nil .nil) r,
                    fresh, true, rfl, ?_, ?_, ?_, ?_, rfl⟩
                  · simp [allPresent, hap.2]
                  · simp only [orderedLoc, Bool.and_eq_true, List.all_eq_true,
                      decide_eq_true_eq]
                    refine ⟨⟨⟨?_, hpr⟩, ?_⟩, hor⟩
                    · intro x hx
                      show cmp x p < 0
                      have : x = data := by
                        simpa [payloads] using hx
                      rw [this]; exact hlt
                    · simp [orderedLoc, payloads]
                  · intro x hx
                    show x ∈ payloads (NTree.node i (some (p, psz)) NTree.nil r) ∨ _
                    simp only [payloads] at hx ⊢
                    simp at hx ⊢
                    tauto
                  · right
                    show (List.nil ++ fresh :: List.nil ++ i :: idsOf r).Perm
                      (fresh :: (List.nil ++ i :: idsOf r))
                    exact List.Perm.refl _
              | node lj ld ll lr =>
                  obtain ⟨l', rid, al, hins, hap', hord', hsub', hids', hroot'⟩ :=
                    ihl (by simp) hap.1 hol
                  simp only
                  rw [hins]
                  refine ⟨.node i (some (p, psz)) l' r, rid, al, rfl, ?_, ?_, ?_, ?_, rfl⟩
                  · simp [allPresent, hap', hap.2]
                  · simp only [orderedLoc, Bool.and_eq_true, List.all_eq_true,
                      decide_eq_true_eq]
                    refine ⟨⟨⟨?_, hpr⟩, hord'⟩, hor⟩
                    intro x hx
                    rcases hsub' x hx with h | h
                    · exact hlp x h
                    · rw [h]; exact hlt
                  · intro x hx
                    simp only [payloads, List.mem_append, List.mem_cons] at hx ⊢
                    rcases hx with h | h
                    · rcases hsub' x h with h' | h'
                      · exact Or.inl (Or.inl h')
                      · exact Or.inr h'
                    · exact Or.inl (Or.inr h)
                  · rcases hids' with h | h
                    · left
                      show idsOf l' ++ i :: idsOf r = idsOf (NTree.node lj ld ll lr) ++ i :: idsOf r
                      rw [h]
                    · right
                      show (idsOf l' ++ i :: idsOf r).Perm
                        (fresh :: (idsOf (NTree.node lj ld ll lr) ++ i :: idsOf r))
                      exact h.append_right _
            · rw [if_neg hlt]
              have hgt : 0 < cmp data p := by
                rcases lt_trichotomy (cmp data p) 0 with h | h | h
                · exact absurd h hlt
                · exact absurd h heq
                · exact h
              cases r with
              | nil =>
                  refine ⟨.node i (some (p, psz)) l
                      (.node fresh (some (data, dsz)) .nil .nil),
                    fresh, true, rfl, ?_, ?_, ?_, ?_, rfl⟩
                  · simp [allPresent, hap.1]
                  · simp only [orderedLoc, Bool.and_eq_true, List.all_eq_true,
                      decide_eq_true_eq]
                    refine ⟨⟨⟨hlp, ?_⟩, hol⟩, ?_⟩
                    · intro x hx
                      show cmp p x < 0
                      have hxd : x = data := by
                        simpa [payloads] using hx
                      rw [hxd]
                      have := hc.comm data p
                      omega
                    · simp [orderedLoc, payloads]
                  · intro x hx
                    show x ∈ payloads (NTree.node i (some (p, psz)) l NTree.nil) ∨ _
                    simp only [payloads] at hx ⊢
                    simp at hx ⊢
                    tauto
                  · right
                    show (idsOf l ++ (i :: fresh :: List.nil)).Perm
                      (fresh :: (idsOf l ++ (i :: List.nil)))
                    have h1 : idsOf l ++ (i :: fresh :: List.nil)
                        = (idsOf l ++ (i :: List.nil)) ++ [fresh] := by simp
                    rw [h1]
                    exact List.perm_append_singleton fresh _
              | node rj rd rl rr =>
                  obtain ⟨r', rid, al, hins, hap', hord', hsub', hids', hroot'⟩ :=
                    ihr (by simp) hap.2 hor
                  simp only
                  rw [hins]
                  refine ⟨.node i (some (p, psz)) l r', rid, al, rfl, ?_, ?_, ?_, ?_, rfl⟩
                  · simp [allPresent, hap', hap.1]
                  · simp only [orderedLoc, Bool.and_eq_true, List.all_eq_true,
                      decide_eq_true_eq]
                    refine ⟨⟨⟨hlp, ?_⟩, hol⟩, hord'⟩
                    intro x hx
                    rcases hsub' x hx with h | h
                    · exact hpr x h
                    · rw [h]
                      have := hc.comm data p
                      omega
                  · intro x hx
                    simp only [payloads, List.mem_append, List.mem_cons] at hx ⊢
                    rcases hx with h | h
                    · exact Or.inl (Or.inl h)
                    · rcases h with h | h
                      · exact Or.inl (Or.inr (Or.inl h))
                      · rcases hsub' x h with h' | h'
                        · exact Or.inl (Or.inr (Or.inr h'))
                        · exact Or.inr h'
                  · rcases hids' with h | h
                    · left
                      show idsOf l ++ i :: idsOf r' = idsOf l ++ i :: idsOf (NTree.node rj rd rl rr)
                      rw [h]
                    · right
                      show (idsOf l ++ i :: idsOf r').Perm
                        (fresh :: (idsOf l ++ i :: idsOf (NTree.node rj rd rl rr)))
                      have h1 : (i :: idsOf r').Perm
                          (fresh :: i :: idsOf (NTree.node rj rd rl rr)) :=
                        List.Perm.trans (List.Perm.cons i h) (List.Perm.swap fresh i _)
                      exact List.Perm.trans (List.Perm.append_left _ h1) List.perm_middle

theorem insert_valid {cmp : α → α → Int} (hc : IsStrictCmp cmp) (fresh : Nat)
    (data : α) (dsz : Nat) (hdsz : dsz ≠ 0) (t : NTree α) (hv : ValidTree cmp t)
    (hfresh : fresh ∉ idsOf t) :
    ∃ t' rid al,
      bin_search_tree_insert_node cmp fresh t data dsz = .ok (t', rid, al) ∧
      ValidTree cmp t' ∧
      t'.rootId = t.rootId ∧
      (idsOf t' = idsOf t ∨ (idsOf t').Perm (fresh :: idsOf t)) ∧
      (payloads t').Pairwise (fun a b => cmp a b < 0) := by
  match t with
  | .nil => exact absurd hv (by simp [ValidTree])
  | .node i none l r =>
      obtain ⟨hl, hr⟩ := hv
      subst hl; subst hr
      refine ⟨.node i (some (data, dsz)) .nil .nil, i, false, ?_, ?_, rfl,
        Or.inl rfl, by simp [payloads]⟩
      · rw [insert_eqn_sentinel, if_neg hdsz]
      · exact ⟨by simp [allPresent], by simp [orderedLoc, payloads], by simp [idsOf]⟩
  | .node i (some d) l r =>
      obtain ⟨hap, hord, hnd⟩ := hv
      obtain ⟨t', rid, al, hins, hap', hord', hsub', hids', hroot'⟩ :=
        insert_spec hc fresh data dsz hdsz (.node i (some d) l r) (by simp) hap hord
      have hne' : t' ≠ .nil := by
        intro hEq
        rw [hEq] at hroot'
        simp [NTree.rootId] at hroot'
      have hnd' : (idsOf t').Nodup := by
        rcases hids' with h | h
        · rw [h]; exact hnd
        · exact h.nodup_iff.mpr (List.nodup_cons.mpr ⟨hfresh, hnd⟩)
      exact ⟨t', rid, al, hins, validTree_of_parts t' hne' hap' hord' hnd',
        hroot', hids', (orderedLoc_iff_pairwise hc t' hap').mp hord'⟩

theorem insert_dup {cmp : α → α → Int} (hc : IsStrictCmp cmp) (fresh : Nat)
    (data : α) (dsz : Nat) (hdsz : dsz ≠ 0) :
    ∀ (t : NTree α), allPresent t = true → orderedLoc cmp t = true →
      (∃ q, q ∈ payloads t ∧ cmp data q = 0) →
      ∃ rid k,
        bin_search_tree_insert_node cmp fresh t data dsz = .ok (t, rid, false) ∧
        bin_search_tree_contains cmp t data = .ok (some rid, k) := by
  intro t
  induction t with
  | nil => rintro _ _ ⟨q, hq, _⟩; simp [payloads] at hq
  | node i d l r ihl ihr =>
      rintro hap hord ⟨q, hq, hkq⟩
      match d with
      | none => simp [allPresent] at hap
      | some (p, psz) =>
          simp only [allPresent, Bool.and_eq_true] at hap
          have hordp := hord
          simp only [orderedLoc, Bool.and_eq_true, List.all_eq_true,
            decide_eq_true_eq] at hordp
          obtain ⟨⟨⟨hlp, hpr⟩, hol⟩, hor⟩ := hordp
          by_cases heq : cmp data p = 0
          · refine ⟨i, 1, ?_, ?_⟩
            · rw [insert_eqn_node, if_neg hdsz, if_pos heq]
            · rw [contains_eqn_node, if_pos heq]
          · by_cases hlt : cmp data p < 0
            · have hql : q ∈ payloads l := by
                have hmem : q ∈ payloads l ++ p :: payloads r := hq
                rcases List.mem_append.mp hmem with h | h
                · exact h
                · rcases List.mem_cons.mp h with rfl | h
                  · exact absurd hkq heq
                  · exfalso
                    have h1 : cmp q p = cmp data p := (hc.eq_congr data q p hkq).symm
                    have h2 : cmp q p = -cmp p q := hc.comm p q
                    have h3 := hpr q h
                    omega
              cases l with
              | nil => simp [payloads] at hql
              | node lj ld ll lr =>
                  obtain ⟨rid, k, hins, hcont⟩ := ihl hap.1 hol ⟨q, hql, hkq⟩
                  refine ⟨rid, k + 1, ?_, ?_⟩
                  · rw [insert_eqn_node, if_neg hdsz, if_neg heq, if_pos hlt, hins]
                  · rw [contains_eqn_node, if_neg heq, if_pos hlt, hcont]
            · have hgt : 0 < cmp data p := by
                rcases lt_trichotomy (cmp data p) 0 with h | h | h
                · exact absurd h hlt
                · exact absurd h heq
                · exact h
              have hqr : q ∈ payloads r := by
                have hmem : q ∈ payloads l ++ p :: payloads r := hq
                rcases List.mem_append.mp hmem with h | h
                · exfalso
                  have h1 : cmp q p = cmp data p := (hc.eq_congr data q p hkq).symm
                  have h2 := hlp q h
                  omega
                · rcases List.mem_cons.mp h with rfl | h
                  · exact absurd hkq heq
                  · exact h
              cases r with
              | nil => simp [payloads] at hqr
              | node rj rd rl rr =>
                  obtain ⟨rid, k, hins, hcont⟩ := ihr hap.2 hor ⟨q, hqr, hkq⟩
                  refine ⟨rid, k + 1, ?_, ?_⟩
                  · rw [insert_eqn_node, if_neg hdsz, if_neg heq, if_neg hlt, hins]
                  · rw [contains_eqn_node, if_neg heq, if_neg hlt, hcont]

theorem nodup_of_valid {cmp : α → α → Int} (t : NTree α) (hv : ValidTree cmp t) :
    (idsOf t).Nodup := by
  match t with
  | .nil => exact absurd hv (by simp [ValidTree])
  | .node i none l r =>
      obtain ⟨hl, hr⟩ := hv
      subst hl; subst hr
      simp [idsOf]
  | .node i (some d) l r => exact hv.2.2

theorem rootId_mem_ids (t : NTree α) (i : Nat) (h : t.rootId = some i) :
    i ∈ idsOf t := by
  match t with
  | .nil => simp [NTree.rootId] at h
  | .node j d l r =>
      simp only [NTree.rootId, Option.some.injEq] at h
      rw [← h]
      show j ∈ idsOf l ++ j :: idsOf r
      exact List.mem_append.mpr (Or.inr (List.mem_cons_self j _))

theorem insert_sz_zero {cmp : α → α → Int} (fresh : Nat) (t : NTree α)
    (hv : ValidTree cmp t) (data : α) :
    bin_search_tree_insert_node cmp fresh t data 0 = .error .insertFailed := by
  match t with
  | .nil => exact absurd hv (by simp [ValidTree])
  | .node i none l r => rw [insert_eqn_sentinel, if_pos rfl]
  | .node i (some (p, psz)) l r => rw [insert_eqn_node, if_pos rfl]

theorem applyOp_good {cmp : α → α → Int} (hc : IsStrictCmp cmp)
    (t : NTree α) (fresh : Nat) (hv : ValidTree cmp t)
    (hb : ∀ j ∈ idsOf t, j < fresh) (op : BstOp α)
    (t' : NTree α) (f' : Nat) (freed : List Nat)
    (hstep : applyOp cmp (t, fresh) op = .ok (t', f', freed)) :
    ValidTree cmp t' ∧ t'.rootId = t.rootId ∧ fresh ≤ f' ∧
    (∀ j ∈ idsOf t', j < f') ∧
    (∀ i, t.rootId = some i → i ∉ freed) := by
  match op with
  | .ins d sz =>
      rw [applyOp] at hstep
      by_cases hsz : sz = 0
      · rw [hsz, insert_sz_zero fresh t hv d] at hstep
        simp at hstep
      · have hfresh : fresh ∉ idsOf t := fun hmem => absurd (hb fresh hmem) (by omega)
        obtain ⟨t'', rid, al, hins, hv'', hroot'', hids'', _⟩ :=
          insert_valid hc fresh d sz hsz t hv hfresh
        rw [hins] at hstep
        simp only [Except.ok.injEq, Prod.mk.injEq] at hstep
        obtain ⟨ht, hf, hfr⟩ := hstep
        subst ht; subst hf; subst hfr
        refine ⟨hv'', hroot'', by omega, ?_, by simp⟩
        intro j hj
        rcases hids'' with h | h
        · rw [h] at hj
          exact Nat.lt_succ_of_lt (hb j hj)
        · have : j ∈ fresh :: idsOf t := h.mem_iff.mp hj
          rcases List.mem_cons.mp this with rfl | hmem
          · omega
          · exact Nat.lt_succ_of_lt (hb j hmem)
  | .del k =>
      rw [applyOp] at hstep
      by_cases hex : ∃ q, q ∈ payloads t ∧ cmp k q = 0
      · obtain ⟨q', l1, l2, t'', fr, hdel, _, _, _, hv'', hroot'', hperm'', _⟩ :=
          delete_present hc k t hv hex
        rw [hdel] at hstep
        simp only [Except.ok.injEq, Prod.mk.injEq] at hstep
        obtain ⟨ht, hf, hfr⟩ := hstep
        subst ht; subst hf; subst hfr
        refine ⟨hv'', hroot'', le_rfl, ?_, ?_⟩
        · intro j hj
          have : j ∈ idsOf t := hperm''.mem_iff.mpr (List.mem_append.mpr (Or.inr hj))
          exact hb j this
        · intro i hri hmem
          have hnd := nodup_of_valid t hv
          have hnd' : (fr ++ idsOf t'').Nodup := hperm''.nodup_iff.mp hnd
          have hmem' : i ∈ idsOf t'' := by
            have : t''.rootId = some i := by rw [hroot'']; exact hri
            exact rootId_mem_ids t'' i this
          exact (List.disjoint_of_nodup_append hnd') hmem hmem'
      · have habs : ∀ q ∈ payloads t, cmp k q ≠ 0 := by
          intro q hq hkq
          exact hex ⟨q, hq, hkq⟩
        rw [delete_absent k t hv habs] at hstep
        simp only [Except.ok.injEq, Prod.mk.injEq] at hstep
        obtain ⟨ht, hf, hfr⟩ := hstep
        subst ht; subst hf; subst hfr
        exact ⟨hv, rfl, le_rfl, hb, by simp⟩
  | .reb =>
      rw [applyOp] at hstep
      obtain ⟨t'', hreb, _, hids'', _, hroot'', hv''⟩ := rebalance_spec hc t hv
      rw [hreb] at hstep
      simp only [Except.ok.injEq, Prod.mk.injEq] at hstep
      obtain ⟨ht, hf, hfr⟩ := hstep
      subst ht; subst hf; subst hfr
      refine ⟨hv'', hroot'', le_rfl, ?_, by simp⟩
      intro j hj
      rw [hids''] at hj
      exact hb j hj

theorem runOps_good {cmp : α → α → Int} (hc : IsStrictCmp cmp) :
    ∀ (ops : List (BstOp α)) (t : NTree α) (fresh : Nat),
      ValidTree cmp t → (∀ j ∈ idsOf t, j < fresh) →
      ∀ (t' : NTree α) (f' : Nat) (freed : List Nat),
        runOps cmp (t, fresh) ops = .ok (t', f', freed) →
        ValidTree cmp t' ∧ t'.rootId = t.rootId ∧
        (∀ i, t.rootId = some i → i ∉ freed) ∧
        (∀ j ∈ idsOf t', j < f')
  | [], t, fresh, hv, hb, t', f', freed, hrun => by
      rw [runOps] at hrun
      simp only [Except.ok.injEq, Prod.mk.injEq] at hrun
      obtain ⟨ht, hf, hfr⟩ := hrun
      subst ht; subst hf; subst hfr
      exact ⟨hv, rfl, by simp, hb⟩
  | op :: ops, t, fresh, hv, hb, t', f', freed, hrun => by
      rw [runOps] at hrun
      match hstep : applyOp cmp (t, fresh) op with
      | .error e => rw [hstep] at hrun; simp at hrun
      | .ok (t1, f1, fr1) =>
          rw [hstep] at hrun
          simp only at hrun
          match hrest : runOps cmp (t1, f1) ops with
          | .error e => rw [hrest] at hrun; simp at hrun
          | .ok (t2, f2, fr2) =>
              rw [hrest] at hrun
              simp only [Except.ok.injEq, Prod.mk.injEq] at hrun
              obtain ⟨ht, hf, hfr⟩ := hrun
              subst ht; subst hf; subst hfr
              obtain ⟨hv1, hroot1, _, hb1, hnf1⟩ :=
                applyOp_good hc t fresh hv hb op t1 f1 fr1 hstep
              obtain ⟨hv2, hroot2, hnf2, hb2⟩ :=
                runOps_good hc ops t1 f1 hv1 hb1 t2 f2 fr2 hrest
              refine ⟨hv2, hroot2.trans hroot1, ?_, hb2⟩
              intro i hri hmem
              rcases List.mem_append.mp hmem with h | h
              · exact hnf1 i hri h
              · have : t1.rootId = some i := by rw [hroot1]; exact hri
                exact hnf2 i this h

theorem locate_eqn_node (cmp : α → α → Int) (i : Nat) (p : α) (sz : Nat)
    (l r : NTree α) (key : α) :
    locate cmp (.node i (some (p, sz)) l r) key =
      (if cmp key p = 0 then some (.node i (some (p, sz)) l r)
       else if cmp key p < 0 then locate cmp l key
       else locate cmp r key) := rfl

theorem subst_eqn_node (cmp : α → α → Int) (rep : NTree α) (i : Nat) (p : α)
    (sz : Nat) (l r : NTree α) (key : α) :
    substLocated cmp rep (.node i (some (p, sz)) l r) key =
      (if cmp key p = 0 then rep
       else if cmp key p < 0 then
         .node i (some (p, sz)) (substLocated cmp rep l key) r
       else .node i (some (p, sz)) l (substLocated cmp rep r key)) := rfl

theorem delete_go_two_children {cmp : α → α → Int} (key : α) :
    ∀ (t : NTree α), allPresent t = true →
      ∀ (nid : Nat) (np : α) (nsz : Nat) (lc rc : NTree α),
      locate cmp t key = some (.node nid (some (np, nsz)) lc rc) →
      lc ≠ .nil → rc ≠ .nil →
      ∃ m msz mid rc',
        spliceMin rc = (some (m, msz), mid, rc') ∧
        payloads rc = m :: payloads rc' ∧
        bst_delete_go cmp t key =
          .ok (substLocated cmp (.node nid (some (m, msz)) lc rc') t key,
               [np], [mid]) := by
  intro t
  induction t with
  | nil => intro _ nid np nsz lc rc hloc; simp [locate] at hloc
  | node i d l r ihl ihr =>
      intro hap nid np nsz lc rc hloc hlc hrc
      match d with
      | none => simp [allPresent] at hap
      | some (p, sz) =>
          simp only [allPresent, Bool.and_eq_true] at hap
          by_cases heq : cmp key p = 0
          · rw [locate_eqn_node, if_pos heq] at hloc
            simp only [Option.some.injEq, NTree.node.injEq, Option.some.injEq,
              Prod.mk.injEq] at hloc
            obtain ⟨hi, ⟨hp, hsz⟩, hl, hr⟩ := hloc
            subst hi; subst hp; subst hsz; subst hl; subst hr
            cases l with
            | nil => exact absurd rfl hlc
            | node lj ld ll lr =>
                cases r with
                | nil => exact absurd rfl hrc
                | node rj rd rl rr =>
                    match rd, hap.2 with
                    | some (rv1, rv2), hapr =>
                    obtain ⟨m, msz, mid, r'', hsp, hpayr, _, _⟩ :=
                      spliceMin_spec rj (some (rv1, rv2)) rl rr hapr
                    refine ⟨m, msz, mid, r'', hsp, hpayr, ?_⟩
                    rw [delete_go_eqn_node, if_pos heq]
                    simp only
                    rw [hsp, subst_eqn_node, if_pos heq]
          · by_cases hlt : cmp key p < 0
            · rw [locate_eqn_node, if_neg heq, if_pos hlt] at hloc
              cases l with
              | nil => simp [locate] at hloc
              | node lj ld ll lr =>
                  obtain ⟨m, msz, mid, rc', hsp, hpayr, hgo⟩ :=
                    ihl hap.1 nid np nsz lc rc hloc hlc hrc
                  refine ⟨m, msz, mid, rc', hsp, hpayr, ?_⟩
                  rw [delete_go_eqn_node, if_neg heq, if_pos hlt]
                  simp only
                  rw [hgo, subst_eqn_node, if_neg heq, if_pos hlt]
            · rw [locate_eqn_node, if_neg heq, if_neg hlt] at hloc
              cases r with
              | nil => simp [locate] at hloc
              | node rj rd rl rr =>
                  obtain ⟨m, msz, mid, rc', hsp, hpayr, hgo⟩ :=
                    ihr hap.2 nid np nsz lc rc hloc hlc hrc
                  refine ⟨m, msz, mid, rc', hsp, hpayr, ?_⟩
                  rw [delete_go_eqn_node, if_neg heq, if_neg hlt]
                  simp only
                  rw [hgo, subst_eqn_node, if_neg heq, if_neg hlt]

theorem delete_two_children {cmp : α → α → Int} (key : α) (t : NTree α)
    (hap : allPresent t = true) (nid : Nat) (np : α) (nsz : Nat)
    (lc rc : NTree α)
    (hloc : locate cmp t key = some (.node nid (some (np, nsz)) lc rc))
    (hlc : lc ≠ .nil) (hrc : rc ≠ .nil) :
    ∃ m msz mid rc',
      spliceMin rc = (some (m, msz), mid, rc') ∧
      payloads rc = m :: payloads rc' ∧
      bin_search_tree_delete_node cmp t key =
        .ok (substLocated cmp (.node nid (some (m, msz)) lc rc') t key,
             [np], [mid]) := by
  match t with
  | .nil => simp [locate] at hloc
  | .node i none l r => simp [allPresent] at hap
  | .node i (some (p, sz)) l r =>
      have hapc := hap
      simp only [allPresent, Bool.and_eq_true] at hapc
      by_cases heq : cmp key p = 0
      · rw [locate_eqn_node, if_pos heq] at hloc
        simp only [Option.some.injEq, NTree.node.injEq, Option.some.injEq,
          Prod.mk.injEq] at hloc
        obtain ⟨hi, ⟨hp, hsz⟩, hl, hr⟩ := hloc
        subst hi; subst hp; subst hsz; subst hl; subst hr
        cases l with
        | nil => exact absurd rfl hlc
        | node lj ld ll lr =>
            cases r with
            | nil => exact absurd rfl hrc
            | node rj rd rl rr =>
                match rd, hapc.2 with
                | some (rv1, rv2), hapr =>
                obtain ⟨m, msz, mid, r'', hsp, hpayr, _, _⟩ :=
                  spliceMin_spec rj (some (rv1, rv2)) rl rr hapr
                refine ⟨m, msz, mid, r'', hsp, hpayr, ?_⟩
                rw [delete_node_eqn_node, if_pos heq]
                simp only
                rw [hsp, subst_eqn_node, if_pos heq]
      · by_cases hlt : cmp key p < 0
        · rw [locate_eqn_node, if_neg heq, if_pos hlt] at hloc
          cases l with
          | nil => simp [locate] at hloc
          | node lj ld ll lr =>
              obtain ⟨m, msz, mid, rc', hsp, hpayr, hgo⟩ :=
                delete_go_two_children key _ hapc.1 nid np nsz lc rc hloc hlc hrc
              refine ⟨m, msz, mid, rc', hsp, hpayr, ?_⟩
              rw [delete_node_eqn_node, if_neg heq, if_pos hlt]
              simp only
              rw [hgo, subst_eqn_node, if_neg heq, if_pos hlt]
        · rw [locate_eqn_node, if_neg heq, if_neg hlt] at hloc
          cases r with
          | nil => simp [locate] at hloc
          | node rj rd rl rr =>
              obtain ⟨m, msz, mid, rc', hsp, hpayr, hgo⟩ :=
                delete_go_two_children key _ hapc.2 nid np nsz lc rc hloc hlc hrc
              refine ⟨m, msz, mid, rc', hsp, hpayr, ?_⟩
              rw [delete_node_eqn_node, if_neg heq, if_neg hlt]
              simp only
              rw [hgo, subst_eqn_node, if_neg heq, if_neg hlt]

/- ============================ claim theorems ============================ -/

/-- C1: for every valid tree, after any successful insert (with a genuinely
fresh node identity) and after any successful delete, the tree is still valid
and its in-order payload sequence is strictly increasing under the
caller-supplied strict-total-order comparator. -/
theorem claim_order_invariant {cmp : α → α → Int} (hc : IsStrictCmp cmp)
    (t : NTree α) (hv : ValidTree cmp t) :
    (∀ (data : α) (dsz fresh : Nat) (t' : NTree α) (rid : Nat) (al : Bool),
        fresh ∉ idsOf t →
        bin_search_tree_insert_node cmp fresh t data dsz = .ok (t', rid, al) →
        ValidTree cmp t' ∧ (payloads t').Pairwise (fun a b => cmp a b < 0)) ∧
    (∀ (key : α) (t' : NTree α) (rel : List α) (fr : List Nat),
        bin_search_tree_delete_node cmp t key = .ok (t', rel, fr) →
        ValidTree cmp t' ∧ (payloads t').Pairwise (fun a b => cmp a b < 0)) := by
  constructor
  · intro data dsz fresh t' rid al hfresh hins
    by_cases hdsz : dsz = 0
    · rw [hdsz, insert_sz_zero fresh t hv data] at hins
      exact absurd hins (by simp)
    · obtain ⟨t'', rid', al', hins', hv', _, _, hpw⟩ :=
        insert_valid hc fresh data dsz hdsz t hv hfresh
      rw [hins'] at hins
      simp only [Except.ok.injEq, Prod.mk.injEq] at hins
      obtain ⟨ht, _, _⟩ := hins
      subst ht
      exact ⟨hv', hpw⟩
  · intro key t' rel fr hdel
    by_cases hex : ∃ q, q ∈ payloads t ∧ cmp key q = 0
    · obtain ⟨q', l1, l2, t'', fr', hdel', _, _, _, hv', _, _, _⟩ :=
        delete_present hc key t hv hex
      rw [hdel'] at hdel
      simp only [Except.ok.injEq, Prod.mk.injEq] at hdel
      obtain ⟨ht, _, _⟩ := hdel
      subst ht
      exact ⟨hv', pairwise_of_valid hc _ hv'⟩
    · have habs : ∀ q ∈ payloads t, cmp key q ≠ 0 := fun q hq hkq => hex ⟨q, hq, hkq⟩
      rw [delete_absent key t hv habs] at hdel
      simp only [Except.ok.injEq, Prod.mk.injEq] at hdel
      obtain ⟨ht, _, _⟩ := hdel
      subst ht
      exact ⟨hv, pairwise_of_valid hc _ hv⟩

theorem claim_order_invariant_witness :
    ValidTree icmp
      (delTree (bin_search_tree_delete_node icmp (runTree (buildSeq [5, 3, 7])) 3)) ∧
    (payloads (delTree (bin_search_tree_delete_node icmp
      (runTree (buildSeq [5, 3, 7])) 3))).Pairwise (fun a b => icmp a b < 0) :=
  (claim_order_invariant icmp_strict (runTree (buildSeq [5, 3, 7])) (by decide)).2
    3
    (delTree (bin_search_tree_delete_node icmp (runTree (buildSeq [5, 3, 7])) 3))
    (delRel (bin_search_tree_delete_node icmp (runTree (buildSeq [5, 3, 7])) 3))
    (delFreed (bin_search_tree_delete_node icmp (runTree (buildSeq [5, 3, 7])) 3))
    (by rfl)

/-- C2: across any sequence of insert/delete/rebalance calls on a valid tree
(with the allocator handing out genuinely fresh node identities), the tree
handle keeps the same identity (the same root node object), and the root node
object is never passed to `free` — only its fields mutate. -/
theorem claim_root_identity_stable {cmp : α → α → Int} (hc : IsStrictCmp cmp)
    (t : NTree α) (fresh : Nat) (hv : ValidTree cmp t)
    (hb : ∀ j ∈ idsOf t, j < fresh) (ops : List (BstOp α))
    (t' : NTree α) (f' : Nat) (freed : List Nat)
    (hrun : runOps cmp (t, fresh) ops = .ok (t', f', freed)) :
    t'.rootId = t.rootId ∧ ∀ i, t.rootId = some i → i ∉ freed := by
  obtain ⟨_, h2, h3, _⟩ := runOps_good hc ops t fresh hv hb t' f' freed hrun
  exact ⟨h2, h3⟩

theorem claim_root_identity_stable_witness :
    (runTree (runOps icmp (emptyHandle, 1)
        [.ins 5 1, .ins 3 1, .ins 7 1, .del 5, .reb, .del 3])).rootId
      = emptyHandle.rootId ∧
    ∀ i, emptyHandle.rootId = some i →
      i ∉ runFreed (runOps icmp (emptyHandle, 1)
        [.ins 5 1, .ins 3 1, .ins 7 1, .del 5, .reb, .del 3]) :=
  claim_root_identity_stable icmp_strict emptyHandle 1 (by decide) (by decide)
    [.ins 5 1, .ins 3 1, .ins 7 1, .del 5, .reb, .del 3]
    (runTree (runOps icmp (emptyHandle, 1)
        [.ins 5 1, .ins 3 1, .ins 7 1, .del 5, .reb, .del 3]))
    (runFresh (runOps icmp (emptyHandle, 1)
        [.ins 5 1, .ins 3 1, .ins 7 1, .del 5, .reb, .del 3]))
    (runFreed (runOps icmp (emptyHandle, 1)
        [.ins 5 1, .ins 3 1, .ins 7 1, .del 5, .reb, .del 3]))
    (by rfl)

/-- C4: deleting a key that is present in a valid tree releases exactly one
payload and decreases the number of reachable payload-holding nodes by
exactly one, uniformly over all structural cases. -/
theorem claim_delete_conservation {cmp : α → α → Int} (hc : IsStrictCmp cmp)
    (t : NTree α) (hv : ValidTree cmp t) (key : α)
    (hex : ∃ q, q ∈ payloads t ∧ cmp key q = 0) :
    ∃ t' rel fr,
      bin_search_tree_delete_node cmp t key = .ok (t', rel, fr) ∧
      rel.length = 1 ∧
      (payloads t').length + 1 = (payloads t).length := by
  obtain ⟨q', l1, l2, t', fr, hdel, _, hsplit, hpay, _, _, _, _⟩ :=
    delete_present hc key t hv hex
  refine ⟨t', [q'], fr, hdel, rfl, ?_⟩
  rw [hsplit, hpay]
  simp
  omega

theorem claim_delete_conservation_witness :
    ∃ t' rel fr,
      bin_search_tree_delete_node icmp exampleTree7 5 = .ok (t', rel, fr) ∧
      rel.length = 1 ∧
      (payloads t').length + 1 = (payloads exampleTree7).length :=
  claim_delete_conservation icmp_strict exampleTree7 (by decide) 5
    ⟨5, by decide, by decide⟩

/-- C5: inserting a payload that compares equal to one already present in a
valid tree is a no-op: the returned tree is unchanged in every node, no node
is allocated (`false` allocation flag), the offered buffer is not adopted, and
the returned node reference is the node `contains` locates for that key. -/
theorem claim_insert_duplicate {cmp : α → α → Int} (hc : IsStrictCmp cmp)
    (t : NTree α) (hv : ValidTree cmp t) (fresh : Nat) (data : α) (dsz : Nat)
    (hdsz : dsz ≠ 0) (hex : ∃ q, q ∈ payloads t ∧ cmp data q = 0) :
    ∃ rid k,
      bin_search_tree_insert_node cmp fresh t data dsz = .ok (t, rid, false) ∧
      bin_search_tree_contains cmp t data = .ok (some rid, k) := by
  match t with
  | .nil => exact absurd hv (by simp [ValidTree])
  | .node i none l r =>
      obtain ⟨hl, hr⟩ := hv
      subst hl; subst hr
      obtain ⟨q, hq, _⟩ := hex
      simp [payloads] at hq
  | .node i (some d) l r =>
      exact insert_dup hc fresh data dsz hdsz _ hv.1 hv.2.1 hex

theorem claim_insert_duplicate_witness :
    ∃ rid k,
      bin_search_tree_insert_node icmp 99 exampleTree7 3 1 =
        .ok (exampleTree7, rid, false) ∧
      bin_search_tree_contains icmp exampleTree7 3 = .ok (some rid, k) :=
  claim_insert_duplicate icmp_strict exampleTree7 (by decide) 99 3 1
    (by decide) ⟨3, by decide, by decide⟩

/-- C6: rebalancing a valid tree succeeds and preserves content exactly: the
in-order sequence of node references (identity, payload, size) is unchanged —
hence the in-order payload sequence and payload multiset are unchanged, no
payload moves between nodes, and the set of allocated node objects is
unchanged (no allocation, no free). -/
theorem claim_rebalance_preserves_content {cmp : α → α → Int}
    (hc : IsStrictCmp cmp) (t : NTree α) (hv : ValidTree cmp t) :
    ∃ t', bin_search_tree_rebalance t = .ok t' ∧
      fillInorder t' = fillInorder t ∧
      payloads t' = payloads t ∧
      idsOf t' = idsOf t := by
  obtain ⟨t', h1, h2, h3, h4, _, _⟩ := rebalance_spec hc t hv
  exact ⟨t', h1, h2, h4, h3⟩

theorem claim_rebalance_preserves_content_witness :
    ∃ t', bin_search_tree_rebalance skewTree15 = .ok t' ∧
      fillInorder t' = fillInorder skewTree15 ∧
      payloads t' = payloads skewTree15 ∧
      idsOf t' = idsOf skewTree15 :=
  claim_rebalance_preserves_content icmp_strict skewTree15 (by decide)

/-- C8: deleting a key that is absent from a valid tree under the comparator
is a normal no-op return: the tree is returned unchanged in every node, no
payload is released, no node is freed, and no error is raised. -/
theorem claim_delete_absent_noop {cmp : α → α → Int} (key : α) (t : NTree α)
    (hv : ValidTree cmp t) (habs : ∀ q ∈ payloads t, cmp key q ≠ 0) :
    bin_search_tree_delete_node cmp t key = .ok (t, [], []) :=
  delete_absent key t hv habs

theorem claim_delete_absent_noop_witness :
    bin_search_tree_delete_node icmp exampleTree7 99 = .ok (exampleTree7, [], []) :=
  claim_delete_absent_noop 99 exampleTree7 (by decide) (by decide)

/-- C9: on an empty-sentinel tree (an allocated root with absent payload and
no children), `contains` returns "not found" as a normal result, performing
zero comparator invocations — the absent payload is never compared. -/
theorem claim_contains_empty_sentinel {β : Type} (cmp : β → β → Int) (key : β)
    (i : Nat) :
    bin_search_tree_contains cmp (.node i none .nil .nil) key = .ok (none, 0) :=
  rfl

/-- C3: deleting a key whose node has two children swaps the payload/size
fields with the in-order successor (the minimum of the right subtree, whose
node is then unlinked in favour of its right child and freed), and releases
exactly the located node's original payload; the located node keeps its
identity, now holding the successor payload.  Concretely, deleting root 5
from {5,3,7,2,4,6,8} leaves the root handle unchanged with root payload 6,
exactly one release, and the six remaining payloads still findable. -/
theorem claim_delete_two_children_swap :
    (∀ (β : Type) (cmp : β → β → Int) (t : NTree β) (key : β) (nid : Nat)
        (np : β) (nsz : Nat) (lc rc : NTree β),
        allPresent t = true →
        locate cmp t key = some (.node nid (some (np, nsz)) lc rc) →
        lc ≠ .nil → rc ≠ .nil →
        ∃ m msz mid rc',
          spliceMin rc = (some (m, msz), mid, rc') ∧
          payloads rc = m :: payloads rc' ∧
          bin_search_tree_delete_node cmp t key =
            .ok (substLocated cmp (.node nid (some (m, msz)) lc rc') t key,
                 [np], [mid])) ∧
    (delRel exampleDel5 = [5] ∧
     (delTree exampleDel5).rootId = exampleTree7.rootId ∧
     rootPayload (delTree exampleDel5) = some 6 ∧
     (delFreed exampleDel5).length = 1 ∧
     ([2, 3, 4, 6, 7, 8] : List Int).all (foundIn (delTree exampleDel5)) = true ∧
     foundIn (delTree exampleDel5) 5 = false) := by
  constructor
  · intro β cmp t key nid np nsz lc rc hap hloc hlc hrc
    exact delete_two_children key t hap nid np nsz lc rc hloc hlc hrc
  · exact ⟨by decide, by decide, by decide, by decide, by decide, by decide⟩

theorem claim_delete_two_children_swap_witness :
    allPresent exampleTree7 = true ∧
    (∃ m msz mid rc',
      spliceMin (NTree.node 3 (some ((7 : Int), 1))
          (.node 6 (some (6, 1)) .nil .nil) (.node 7 (some (8, 1)) .nil .nil))
        = (some (m, msz), mid, rc') ∧
      payloads (NTree.node 3 (some ((7 : Int), 1))
          (.node 6 (some (6, 1)) .nil .nil) (.node 7 (some (8, 1)) .nil .nil))
        = m :: payloads rc' ∧
      bin_search_tree_delete_node icmp exampleTree7 5 =
        .ok (substLocated icmp
              (.node 0 (some (m, msz))
                (.node 2 (some (3, 1)) (.node 4 (some (2, 1)) .nil .nil)
                  (.node 5 (some (4, 1)) .nil .nil)) rc')
              exampleTree7 5,
             [5], [mid])) :=
  ⟨by decide,
   claim_delete_two_children_swap.1 Int icmp exampleTree7 5 0 5 1
     (.node 2 (some (3, 1)) (.node 4 (some (2, 1)) .nil .nil)
       (.node 5 (some (4, 1)) .nil .nil))
     (.node 3 (some (7, 1)) (.node 6 (some (6, 1)) .nil .nil)
       (.node 7 (some (8, 1)) .nil .nil))
     (by decide) (by decide) (by decide) (by decide)⟩

/-- C7: inserting 1..15 in ascending order (a fully right-skewed tree) and
then rebalancing yields a tree whose height is at most 4 counted in edges
(5 counted in nodes, since the original root — holding the minimum — keeps
its identity and all 14 other nodes hang off its right), whose in-order
payload sequence is still exactly 1..15, and in which all 15 payloads are
still findable by `contains`. -/
theorem claim_skew_rebalance_height :
    bin_search_tree_rebalance skewTree15 = .ok skewReb15 ∧
    heightEdges skewReb15 ≤ 4 ∧
    height skewReb15 = 5 ∧
    payloads skewReb15 = skewKeys ∧
    skewKeys.all (foundIn skewReb15) = true :=
  ⟨by rfl, by decide, by decide, by decide, by decide⟩

/-- C10: after rebalancing a valid tree with n ≥ 2 payload nodes, each of the
root's two subtrees — rebuilt by midpoint bisection from its slice of k
consecutive in-order nodes — has node-height exactly ⌈log2(k+1)⌉, so the
whole tree's node-height is at most 1 + ⌈log2 n⌉ even when one slice holds
all n−1 non-root nodes. -/
theorem claim_rebalance_height_exact {cmp : α → α → Int} (t : NTree α)
    (hv : ValidTree cmp t) (hn : 2 ≤ (payloads t).length) (t' : NTree α)
    (hreb : bin_search_tree_rebalance t = .ok t') :
    (∀ (i : Nat) (d : Option (α × Nat)) (l' r' : NTree α),
        t' = .node i d l' r' →
        height l' = Nat.clog 2 ((fillInorder l').length + 1) ∧
        height r' = Nat.clog 2 ((fillInorder r').length + 1)) ∧
    height t' ≤ 1 + Nat.clog 2 (payloads t).length := by
  match t with
  | .nil => exact absurd hv (by simp [ValidTree])
  | .node i none l r =>
      obtain ⟨hl, hr⟩ := hv
      subst hl; subst hr
      simp [payloads] at hn
  | .node i (some (p, sz)) l r =>
      obtain ⟨hap, hord, hnd⟩ := hv
      rw [rebalance_rebuild i p sz l r hap hnd hn] at hreb
      simp only [Except.ok.injEq] at hreb
      subst hreb
      have hlen : (payloads (NTree.node i (some (p, sz)) l r)).length
          = (fillInorder l).length + 1 + (fillInorder r).length := by
        rw [payloads_eq_fill_map]
        show (List.map _ (fillInorder l ++ (i, p, sz) :: fillInorder r)).length = _
        simp
        omega
      constructor
      · intro i0 d0 l0 r0 heq0
        simp only [NTree.node.injEq] at heq0
        obtain ⟨_, _, hl0, hr0⟩ := heq0
        constructor
        · rw [← hl0, fill_link_balanced _ _ le_rfl]
          exact height_link_balanced _ _ le_rfl
        · rw [← hr0, fill_link_balanced _ _ le_rfl]
          exact height_link_balanced _ _ le_rfl
      · have h1 : height (bst_link_balanced (fillInorder l).length (fillInorder l))
            = Nat.clog 2 ((fillInorder l).length + 1) :=
          height_link_balanced _ _ le_rfl
        have h2 : height (bst_link_balanced (fillInorder r).length (fillInorder r))
            = Nat.clog 2 ((fillInorder r).length + 1) :=
          height_link_balanced _ _ le_rfl
        rw [height, h1, h2, hlen]
        have b1 : Nat.clog 2 ((fillInorder l).length + 1)
            ≤ Nat.clog 2 ((fillInorder l).length + 1 + (fillInorder r).length) :=
          Nat.clog_mono_right 2 (by omega)
        have b2 : Nat.clog 2 ((fillInorder r).length + 1)
            ≤ Nat.clog 2 ((fillInorder l).length + 1 + (fillInorder r).length) :=
          Nat.clog_mono_right 2 (by omega)
        exact Nat.add_le_add_left (max_le b1 b2) 1

theorem claim_rebalance_height_exact_witness :
    2 ≤ (payloads (runTree (buildSeq [2, 1, 3]))).length ∧
    ((∀ (i : Nat) (d : Option (Int × Nat)) (l' r' : NTree Int),
        rebTree (bin_search_tree_rebalance (runTree (buildSeq [2, 1, 3])))
          = .node i d l' r' →
        height l' = Nat.clog 2 ((fillInorder l').length + 1) ∧
        height r' = Nat.clog 2 ((fillInorder r').length + 1)) ∧
     height (rebTree (bin_search_tree_rebalance (runTree (buildSeq [2, 1, 3]))))
       ≤ 1 + Nat.clog 2 (payloads (runTree (buildSeq [2, 1, 3]))).length) :=
  ⟨by decide,
   @claim_rebalance_height_exact Int icmp (runTree (buildSeq [2, 1, 3]))
     (by decide) (by decide)
     (rebTree (bin_search_tree_rebalance (runTree (buildSeq [2, 1, 3]))))
     (by rfl)⟩

end CBst
